import Mathlib

/-!
Verification of the PR workflow engine of the `ai_agents_project` repository.

Strings are modelled as lists of Unicode code points (`List Nat`).  Python's
`str.lower` is modelled by `pyLower` as a code-point-to-code-points map, so
that the one expanding case of CPython's lower-case mapping (U+0130 becomes
the two code points U+0069 U+0307) is reflected and lower-casing can change
the length of a string; Python's whitespace class (used both by `str.strip`
and by the regex class `\s`) is modelled by `isSpace`, which lists the
Unicode whitespace code points.
-/

namespace GitOps

/-- Python's `str.lower`, per code point.  U+0130 (LATIN CAPITAL LETTER I
WITH DOT ABOVE, 304) is the only code point whose CPython lower-case image
has length other than one: it becomes U+0069 U+0307 (105, 775), so
lower-casing can lengthen a string.  `A`-`Z` map to `a`-`z`; all other code
points are kept verbatim.  The non-ASCII single-point case mappings (for
example U+00C0 to U+00E0) are abstracted to the identity: no lower-case
image of a code point at or above 32 ever lands in the character classes
that `validate_branch_name` or `_sanitize_branch_name` treat specially
(whitespace, control, `~ ^ : [ ] \ @`, braces, dot, dash, slash), so this
abstraction changes neither the length arithmetic nor any validator or
sanitizer branch. -/
def pyLower (c : Nat) : List Nat :=
  if c = 304 then [105, 775]
  else if 65 ≤ c ∧ c ≤ 90 then [c + 32] else [c]

/-- Unicode whitespace, as matched by Python's `\s` and stripped by `str.strip()`. -/
def isSpace (c : Nat) : Bool :=
  c == 9 || c == 10 || c == 11 || c == 12 || c == 13 ||
  (28 ≤ c && c ≤ 31) || c == 32 || c == 133 || c == 160 ||
  c == 0x1680 || (0x2000 ≤ c && c ≤ 0x200a) ||
  c == 0x2028 || c == 0x2029 || c == 0x202f || c == 0x205f || c == 0x3000

/-- The character class removed by `_sanitize_branch_name`'s regex
`[~^:\[\]\\@{}]` (i.e. `~ ^ : [ ] \ @ { }`). -/
def isRemovedChar (c : Nat) : Bool :=
  c == 126 || c == 94 || c == 58 || c == 91 || c == 93 || c == 92 ||
  c == 64 || c == 123 || c == 125

/-- The character class rejected by `validate_branch_name`'s regex
`[~^:\s\[\]\\]` (i.e. `~ ^ : [ ] \` and whitespace). -/
def isInvalidChar (c : Nat) : Bool :=
  c == 126 || c == 94 || c == 58 || c == 91 || c == 93 || c == 92 || isSpace c

/-- Model of `re.sub(p+, rep, l)`: replace every maximal run of characters satisfying
`p` by the single character `rep`.  This is the common shape of the four
substitutions in `_sanitize_branch_name` (`\s+ -> -`, `\.\.+ -> .`,
`/+ -> /`, `-+ -> -`); note that for the dot/slash/dash substitutions the
replacement equals the run character, so collapsing runs of length one is
the identity there, matching the regexes. -/
def collapseRuns (p : Nat → Bool) (rep : Nat) : List Nat → List Nat
  | [] => []
  | [c] => if p c then [rep] else [c]
  | c :: d :: rest =>
    if p c && p d then collapseRuns p rep (d :: rest)
    else (if p c then rep else c) :: collapseRuns p rep (d :: rest)

/-- Characters stripped from both ends by the `strip` call whose argument is
the three characters dot, dash, slash. -/
def isStripChar (c : Nat) : Bool :=
  c == 46 || c == 45 || c == 47

/-- Characters stripped from the right by `.rstrip('-.')` in the truncation
branch. -/
def isTrimChar (c : Nat) : Bool :=
  c == 45 || c == 46

/-- The fallback branch name `"feature"`. -/
def feature : List Nat := [102, 101, 97, 116, 117, 114, 101]

/-- Stage for `name.lower().strip()` (line 240 of src/utils/git_operations.py). -/
def pyStripLower (name : List Nat) : List Nat :=
  ((name.bind pyLower).dropWhile isSpace).rdropWhile isSpace

/-- Stage for the `re.sub` of `\s+` to `-` (line 241). -/
def collapseWs (l : List Nat) : List Nat := collapseRuns isSpace 45 l

/-- Stage for the `re.sub` removing `[~^:\[\]\\@{}]` (line 244). -/
def removeInvalid (l : List Nat) : List Nat := l.filter (fun c => !isRemovedChar c)

/-- Stage for the `re.sub` of `\.\.+` to `.` (line 245). -/
def collapseDots (l : List Nat) : List Nat := collapseRuns (fun c => c == 46) 46 l

/-- Stage for the `re.sub` of `/+` to `/` (line 246). -/
def collapseSlashes (l : List Nat) : List Nat := collapseRuns (fun c => c == 47) 47 l

/-- The `strip` call removing dots, dashes and slashes from both ends
(line 249). -/
def stripEnds (l : List Nat) : List Nat :=
  (l.dropWhile isStripChar).rdropWhile isStripChar

/-- Stage for the `re.sub` of `^-+` to the empty string (line 252). -/
def dropLeadDashes (l : List Nat) : List Nat := l.dropWhile (fun c => c == 45)

/-- Stage for the `re.sub` of `-+` to `-` (line 255). -/
def collapseDashes (l : List Nat) : List Nat := collapseRuns (fun c => c == 45) 45 l

/-- The substitution pipeline of `_sanitize_branch_name`
(src/utils/git_operations.py, lines 240-255), before the empty-fallback and
truncation steps. -/
def sanMain (name : List Nat) : List Nat :=
  collapseDashes (dropLeadDashes (stripEnds (collapseSlashes (collapseDots
    (removeInvalid (collapseWs (pyStripLower name)))))))

/-- Embedding of `GitOperations._sanitize_branch_name`
(src/utils/git_operations.py, lines 228-269).  The stages mirror the Python
statements in order: lower-case and strip, collapse whitespace to `-`,
remove `[~^:\[\]\\@{}]`, collapse `\.\.+` to `.`, collapse `/+` to `/`,
strip dot-dash-slash from both ends, drop leading dashes, collapse `-+` to `-`,
fall back to `"feature"` when empty, truncate to 200 chars and `rstrip('-.')`. -/
def _sanitize_branch_name (name : List Nat) : List Nat :=
  let s8 := sanMain name
  let s9 := if s8.isEmpty then feature else s8
  if 200 < s9.length then (s9.take 200).rdropWhile isTrimChar else s9

/-- Pair search: `hasPair a b l` holds when `l` contains the two-character substring `a b`;
this models `re.search` for the two-character patterns `\.\.`, `@{`, `//`. -/
def hasPair (a b : Nat) : List Nat → Bool
  | [] => false
  | [_] => false
  | c :: d :: rest => (c == a && d == b) || hasPair a b (d :: rest)

/-- Embedding of `GitOperations.validate_branch_name`
(src/utils/git_operations.py, lines 183-226): the pattern list is checked in
source order, then the length bound, then the control-character check.
Returns the `(is_valid, error_message)` pair. -/
def validate_branch_name (name : List Nat) : Bool × Option String :=
  if name.isEmpty then (false, some "Branch name cannot be empty")
  else if name.head? == some 46 then
    (false, some "Branch name cannot start with a dot")
  else if name.getLast? == some 46 then
    (false, some "Branch name cannot end with a dot")
  else if hasPair 46 46 name then
    (false, some "Branch name cannot contain consecutive dots")
  else if name.any isInvalidChar then
    (false, some "Branch name contains invalid characters")
  else if hasPair 64 123 name then
    (false, some "Branch name cannot contain @\x7b")
  else if name.head? == some 45 then
    (false, some "Branch name cannot start with a dash")
  else if name.getLast? == some 45 then
    (false, some "Branch name cannot end with a dash")
  else if name.getLast? == some 47 then
    (false, some "Branch name cannot end with a slash")
  else if hasPair 47 47 name then
    (false, some "Branch name cannot contain consecutive slashes")
  else if 250 < name.length then
    (false, some "Branch name is too long (max 250 characters)")
  else if name.any (fun c => decide (c < 32)) then
    (false, some "Branch name contains control characters")
  else (true, none)

/-- The fields of the dictionary returned by `GitOperations.calculate_file_diff`
that the specification's classification claim concerns.  The unified-diff
fields (`diff_lines`, `additions`, `deletions`, ...) computed via `difflib`
are not needed by any claim and are not modelled. -/
structure FileDiff where
  change_type : String
  original_size : Nat
  new_size : Nat
  deriving Repr, DecidableEq

/-- Embedding of the classification branch of
`GitOperations.calculate_file_diff` (src/utils/git_operations.py,
lines 17-78, classification at lines 48-56).  Python string truthiness
(`not original_content`) is emptiness. -/
def calculate_file_diff (original_content new_content : List Nat) : FileDiff :=
  { change_type :=
      if original_content.isEmpty && !new_content.isEmpty then "create"
      else if !original_content.isEmpty && new_content.isEmpty then "delete"
      else if original_content ≠ new_content then "modify"
      else "no_change"
  , original_size := original_content.length
  , new_size := new_content.length }

/-- Decimal digit characters of `n`, accumulator style; `fuel` bounds the
recursion and `n + 1` is always enough. -/
def natDigitsGo : Nat → Nat → List Nat → List Nat
  | 0, _, acc => acc
  | fuel + 1, n, acc =>
    if n == 0 then acc else natDigitsGo fuel (n / 10) ((48 + n % 10) :: acc)

/-- The decimal rendering of a counter value, as in Python's f-string
interpolation of an `int`. -/
def natDigits (n : Nat) : List Nat :=
  if n == 0 then [48] else natDigitsGo (n + 1) n []

/-- The suffix-search loop of `generate_unique_branch_name`
(src/utils/git_operations.py, lines 164-175): try `sanitized-counter` for
`counter = 1, 2, ...`; after 1000 failed candidates fall back to the
timestamp-suffixed name.  `fuel` counts the remaining candidates, so the
top-level call uses `fuel = 1000`. -/
def genLoop (sanitized : List Nat) (existing : List (List Nat))
    (timestamp : List Nat) : Nat → Nat → List Nat
  | _, 0 => sanitized ++ 45 :: timestamp
  | counter, fuel + 1 =>
    let candidate := sanitized ++ 45 :: natDigits counter
    if candidate ∈ existing then genLoop sanitized existing timestamp (counter + 1) fuel
    else candidate

/-- Embedding of `GitOperations.generate_unique_branch_name`
(src/utils/git_operations.py, lines 138-181).  `repo_url` is accepted and
ignored exactly as in the source; `timestamp` stands for the value of
`datetime.now().strftime(...)`.  Note the Python guard `if not
existing_branches` treats `None` and the empty list alike, modelled by
`isEmpty`. -/
def generate_unique_branch_name (base_name : List Nat) (repo_url : List Nat)
    (existing_branches : List (List Nat)) (timestamp : List Nat) : List Nat :=
  let sanitized_name := _sanitize_branch_name base_name
  if existing_branches.isEmpty then sanitized_name ++ 45 :: timestamp
  else if sanitized_name ∉ existing_branches then sanitized_name
  else genLoop sanitized_name existing_branches timestamp 1 1000

/-- Test that `pat` starts `l` (on code-point lists). -/
def isPrefixN : List Nat → List Nat → Bool
  | [], _ => true
  | _ :: _, [] => false
  | a :: as, b :: bs => a == b && isPrefixN as bs

/-- Test that `pat` occurs as a contiguous substring of `l`;
models Python's `in` on strings. -/
def containsSub (pat : List Nat) : List Nat → Bool
  | [] => pat.isEmpty
  | c :: rest => isPrefixN pat (c :: rest) || containsSub pat rest

/-- Code points of a string literal. -/
def strCodes (s : String) : List Nat := s.data.map Char.toNat

end GitOps

namespace ErrHandler

/-- Embedding of the `ErrorType` enumeration (src/utils/error_handler.py,
lines 12-21). -/
inductive ErrorType where
  | github_api
  | authentication
  | rate_limit
  | network
  | validation
  | openai_api
  | file_operation
  | general
  deriving DecidableEq, Repr

/-- The observable attributes of a Python exception that
`_is_retryable_error` inspects: whether it is an instance of the requests
exception classes named in the `isinstance` check (`ConnectionError` and
`Timeout` are subclasses of `RequestException`, so the three-class check is
instance-of-`RequestException`), the `response.status_code` when the
`response` attribute chain exists, and `str(error).lower()`. -/
structure PyError where
  isRequestsException : Bool
  status : Option Nat
  message : List Nat
  deriving DecidableEq, Repr

/-- The `retryable_status_codes` of the `GITHUB_API` entry of `error_configs`
(src/utils/error_handler.py, line 55). -/
def github_api_retryable_status_codes : List Nat := [429, 500, 502, 503, 504]

/-- The general retryable status list hard-coded at line 258 of
src/utils/error_handler.py. -/
def general_retryable_status_codes : List Nat := [429, 500, 502, 503, 504]

/-- The `max_attempts` resolved by `_get_retry_config` with no custom config:
the default is 3, overridden per error type by `error_configs`
(src/utils/error_handler.py, lines 41-73). -/
def max_attempts : ErrorType → Nat
  | .github_api => 5
  | .rate_limit => 3
  | .network => 4
  | .openai_api => 3
  | _ => 3

/-- The `retryable_messages` list of the `OPENAI_API` branch
(src/utils/error_handler.py, line 267). -/
def retryable_messages : List (List Nat) :=
  [GitOps.strCodes "rate limit", GitOps.strCodes "timeout",
   GitOps.strCodes "server error", GitOps.strCodes "service unavailable"]

/-- Embedding of `ErrorHandler._is_retryable_error`
(src/utils/error_handler.py, lines 242-279), branch for branch in source
order: requests-exception instances first, then the status-code branch,
then the per-type branches. -/
def _is_retryable_error (error : PyError) (error_type : ErrorType) : Bool :=
  if error.isRequestsException then true
  else
    match error.status with
    | some status_code =>
      if error_type == ErrorType.github_api then
        github_api_retryable_status_codes.contains status_code
      else
        general_retryable_status_codes.contains status_code
    | none =>
      if error_type == ErrorType.rate_limit then true
      else if error_type == ErrorType.openai_api then
        retryable_messages.any (fun m => GitOps.containsSub m error.message)
      else if error_type == ErrorType.authentication then false
      else if error_type == ErrorType.validation then false
      else true

/-- The retry loop of `ErrorHandler.retry_with_backoff`
(src/utils/error_handler.py, lines 170-208), with the backoff sleeps
abstracted away.  `f attempt` is the outcome of the `attempt`-th call of
`func` (0-based); `fuel` is the number of attempts remaining, so the
top-level call passes `max_attempts`.  Returns the final outcome (the value
returned, or the exception raised) together with the number of calls made.
The `fuel = 0` entry case is unreachable from `retry_with_backoff` because
every resolved config has `max_attempts ≥ 3`. -/
def retryGo (error_type : ErrorType) (f : Nat → Except PyError α) :
    Nat → Nat → Except PyError α × Nat
  | _, 0 => (Except.error ⟨false, none, []⟩, 0)
  | attempt, fuel + 1 =>
    match f attempt with
    | Except.ok v => (Except.ok v, 1)
    | Except.error e =>
      if !_is_retryable_error e error_type then (Except.error e, 1)
      else if fuel = 0 then (Except.error e, 1)
      else
        let r := retryGo error_type f (attempt + 1) fuel
        (r.1, r.2 + 1)

/-- Embedding of `ErrorHandler.retry_with_backoff` with no custom config
(src/utils/error_handler.py, lines 147-208). -/
def retry_with_backoff (error_type : ErrorType) (f : Nat → Except PyError α) :
    Except PyError α × Nat :=
  retryGo error_type f 0 (max_attempts error_type)

end ErrHandler

namespace GHManager

/-- The `error.code` assigned by `ErrorHandler.handle_github_api_errors`
(src/utils/error_handler.py, lines 281-365) for a GithubException with the
given status. -/
def gh_error_code (status : Nat) : String :=
  if status == 401 then "authentication_error"
  else if status == 403 then "permission_denied"
  else if status == 404 then "resource_not_found"
  else if status == 422 then "validation_error"
  else if status == 429 then "rate_limit_exceeded"
  else "github_api_error"

/-- The `error.message` assigned by `ErrorHandler.handle_github_api_errors` for
a GithubException with the given status. -/
def gh_error_message (status : Nat) : String :=
  if status == 401 then "GitHub authentication failed"
  else if status == 403 then "Permission denied or rate limit exceeded"
  else if status == 404 then "Repository or resource not found"
  else if status == 422 then "GitHub API validation error"
  else if status == 429 then "GitHub API rate limit exceeded"
  else "GitHub API error occurred"

/-- Rendering of `str(e)` for a `GithubException`, used when a
`GithubException` raised by `create_file` reaches the generic per-file
handler; claims never depend on this text. -/
def gh_exception_str (status : Nat) : String :=
  "GithubException " ++ toString status

/-- Behavior of the `get_contents` call for one file, beyond what the
repository state determines: `ok` means the call follows the state (returns
the stored content, or raises a 404 `GithubException` when the path is
absent); `gh status` means it raises a `GithubException` with that status;
`exc msg` means it raises a non-GithubException exception. -/
inductive GetFault where
  | ok
  | gh (status : Nat)
  | exc (msg : String)
  deriving DecidableEq, Repr

/-- Behavior of the write (`update_file` or `create_file`) attempted for one
file, when one is attempted. -/
inductive WriteFault where
  | ok
  | gh (status : Nat)
  | exc (msg : String)
  deriving DecidableEq, Repr

/-- Fault injection for one file of a `commit_multiple_files` call. -/
structure FileFault where
  get : GetFault
  write : WriteFault
  deriving DecidableEq, Repr

/-- An entry of the `committed_files` list (the `sha` field is not
modelled). -/
structure CommitOutcome where
  path : String
  action : String
  deriving DecidableEq, Repr

/-- An entry of the `failed_files` list; `error_code` is present only for
entries produced by the classified `GithubException` branch. -/
structure FailedFile where
  path : String
  error : String
  error_code : Option String
  deriving DecidableEq, Repr

/-- The dictionary returned by `commit_multiple_files`, restricted to the
keys the claims concern.  Early error returns (`handle_authentication_errors`
and `handle_github_api_errors` responses) carry no `status` key, modelled by
`status = none`; `failed_files` is present (`some`) exactly on the main
return path. -/
structure CommitResult where
  status : Option String
  error : Option String
  error_code : Option String
  committed_files : List CommitOutcome
  failed_files : Option (List FailedFile)
  deriving DecidableEq, Repr

/-- The branch contents reachable from the commit path: an association list
from file path to content (insertion ordered, unique keys like a Python
dict / the remote tree). -/
def lookupFile (repo : List (String × String)) (p : String) : Option String :=
  (repo.find? (fun kv => kv.1 == p)).map (fun kv => kv.2)

/-- Write `content` at `path`, replacing an existing entry or appending. -/
def setFile : List (String × String) → String → String → List (String × String)
  | [], p, c => [(p, c)]
  | (q, v) :: rest, p, c =>
    if q == p then (q, c) :: rest else (q, v) :: setFile rest p c

/-- The create branch (lines 444-456 of src/agents/github_manager.py):
reached when `get_contents` (or `update_file`) raised a 404
`GithubException`.  A `GithubException` raised by `create_file` itself
propagates to the outer per-file `except Exception` handler, producing a
`failed_files` entry with `str(e)` and no `error_code`. -/
def attemptCreate (repo : List (String × String)) (w : WriteFault) (p c : String) :
    (CommitOutcome ⊕ FailedFile) × List (String × String) × Nat :=
  match w with
  | WriteFault.ok => (Sum.inl ⟨p, "created"⟩, setFile repo p c, 1)
  | WriteFault.gh s => (Sum.inr ⟨p, gh_exception_str s, none⟩, repo, 0)
  | WriteFault.exc m => (Sum.inr ⟨p, m, none⟩, repo, 0)

/-- Embedding of one iteration of the per-file loop of
`commit_multiple_files` (src/agents/github_manager.py, lines 413-480):
read the existing content, record `unchanged` when identical, otherwise
update; on a 404 create; a non-404 `GithubException` from the read/update
becomes a classified `failed_files` entry; any other exception becomes a
generic `failed_files` entry.  (When `update_file` raises a 404 the code
falls through to `create_file`; the model lets that create succeed.)
Returns the outcome, the new branch state and the number of writes. -/
def processFile (repo : List (String × String)) (fault : FileFault) (p c : String) :
    (CommitOutcome ⊕ FailedFile) × List (String × String) × Nat :=
  match fault.get with
  | GetFault.exc m => (Sum.inr ⟨p, m, none⟩, repo, 0)
  | GetFault.gh s =>
    if s == 404 then attemptCreate repo fault.write p c
    else (Sum.inr ⟨p, gh_error_message s, some (gh_error_code s)⟩, repo, 0)
  | GetFault.ok =>
    match lookupFile repo p with
    | none => attemptCreate repo fault.write p c
    | some v =>
      if v == c then (Sum.inl ⟨p, "unchanged"⟩, repo, 0)
      else
        match fault.write with
        | WriteFault.ok => (Sum.inl ⟨p, "updated"⟩, setFile repo p c, 1)
        | WriteFault.gh s =>
          if s == 404 then (Sum.inl ⟨p, "created"⟩, setFile repo p c, 1)
          else (Sum.inr ⟨p, gh_error_message s, some (gh_error_code s)⟩, repo, 0)
        | WriteFault.exc m => (Sum.inr ⟨p, m, none⟩, repo, 0)

/-- Accumulated state of the per-file loop. -/
structure LoopResult where
  committed : List CommitOutcome
  failed : List FailedFile
  repo : List (String × String)
  writes : Nat
  deriving Repr

/-- The per-file loop of `commit_multiple_files`, in input order. -/
def commitLoop (faults : String → FileFault) (repo : List (String × String)) :
    List (String × String) → LoopResult
  | [] => ⟨[], [], repo, 0⟩
  | (p, c) :: rest =>
    let step := processFile repo (faults p) p c
    let r := commitLoop faults step.2.1 rest
    match step.1 with
    | Sum.inl co => ⟨co :: r.committed, r.failed, r.repo, step.2.2 + r.writes⟩
    | Sum.inr ff => ⟨r.committed, ff :: r.failed, r.repo, step.2.2 + r.writes⟩

/-- Embedding of `GitHubManager.commit_multiple_files`
(src/agents/github_manager.py, lines 376-518).  `authenticated` models
`self.github_client` being non-`None`; `branch_exists` the outcome of the
`get_branch` verification (a missing branch is modelled as the 404 case of
`handle_github_api_errors`); `faults` injects per-file API behavior.
Returns the result dictionary, the final branch state, the number of
create/update writes issued, and the number of `get_branch` reads. -/
def commit_multiple_files (authenticated branch_exists : Bool)
    (repo : List (String × String)) (faults : String → FileFault)
    (files_dict : List (String × String)) :
    CommitResult × List (String × String) × Nat × Nat :=
  if !authenticated then
    (⟨none, some "Authentication failed", some "authentication_error", [], none⟩,
      repo, 0, 0)
  else if files_dict.isEmpty then
    (⟨some "error", some "No files provided for commit", none, [], none⟩, repo, 0, 0)
  else if !branch_exists then
    (⟨none, some (gh_error_message 404), some (gh_error_code 404), [], none⟩,
      repo, 0, 1)
  else
    let r := commitLoop faults repo files_dict
    (⟨some (if r.failed.isEmpty then "success" else "partial"), none, none,
        r.committed, some r.failed⟩,
      r.repo, r.writes, 1)

/-- A fault assignment injecting no failures anywhere. -/
def noFaults : String → FileFault := fun _ => ⟨GetFault.ok, WriteFault.ok⟩

end GHManager

namespace PRWorkflow

/-- The workflow bookkeeping of `PRManager`
(src/agents/pr_manager.py, lines 27-28): the keys of
`self.active_workflows` and the `workflow_id`s of
`self.completed_workflows`, in order. -/
structure EngineState where
  active : List String
  completed : List String
  deriving DecidableEq, Repr

/-- One engine operation, restricted to its effect on the two workflow
collections.  `start` is `process_pr_request` registering a fresh
`uuid.uuid4()` id (freshness is the `ha`/`hc` hypothesis); `finish` is
`_complete_workflow` on an active id (lines 529-556: append to
`completed_workflows`, then delete from `active_workflows`, in one
operation); `finish_missing` is `_complete_workflow` on an unknown id,
which returns an error and changes nothing; `query` is any of the read-only
introspection calls (`get_workflow_status`, `get_active_workflows`,
`get_completed_workflows`). -/
inductive EngineStep : EngineState → EngineState → Prop
  | start (s : EngineState) (id : String) (ha : id ∉ s.active) (hc : id ∉ s.completed) :
      EngineStep s ⟨id :: s.active, s.completed⟩
  | finish (s : EngineState) (id : String) (h : id ∈ s.active) :
      EngineStep s ⟨s.active.erase id, s.completed ++ [id]⟩
  | finish_missing (s : EngineState) (id : String) (h : id ∉ s.active) :
      EngineStep s s
  | query (s : EngineState) : EngineStep s s

/-- States reachable from the freshly initialized manager (both collections
empty) by any sequence of engine operations. -/
inductive Reachable : EngineState → Prop
  | init : Reachable ⟨[], []⟩
  | step {s t : EngineState} : Reachable s → EngineStep s t → Reachable t

/-- The engine invariant: the active map's key list is duplicate-free, and no
active id is also completed. -/
def Invariant (s : EngineState) : Prop :=
  s.active.Nodup ∧ ∀ id ∈ s.active, id ∉ s.completed

end PRWorkflow

namespace GitOps

theorem rdropWhile_front (p : Nat → Bool) (l : List Nat) :
    l.rdropWhile p <+: l :=
  List.rdropWhile_prefix p l

theorem collapseRuns_mem {p : Nat → Bool} {rep : Nat} :
    ∀ {l : List Nat} {c : Nat}, c ∈ collapseRuns p rep l →
      c = rep ∨ (c ∈ l ∧ p c = false) := by
  intro l
  induction l with
  | nil => intro c h; simp [collapseRuns] at h
  | cons a tail ih =>
    cases tail with
    | nil =>
      intro c h
      by_cases hp : p a
      · simp only [collapseRuns, if_pos hp, List.mem_singleton] at h
        exact Or.inl h
      · simp only [collapseRuns, if_neg hp, List.mem_singleton] at h
        subst h
        exact Or.inr ⟨List.mem_singleton_self _, Bool.eq_false_iff.mpr hp⟩
    | cons d rest =>
      intro c h
      by_cases hpd : (p a && p d) = true
      · rw [collapseRuns, if_pos hpd] at h
        rcases ih h with h1 | ⟨h2, h3⟩
        · exact Or.inl h1
        · exact Or.inr ⟨List.mem_cons_of_mem a h2, h3⟩
      · rw [collapseRuns, if_neg hpd] at h
        rcases List.mem_cons.mp h with h1 | h1
        · by_cases hpa : p a
          · rw [if_pos hpa] at h1; exact Or.inl h1
          · rw [if_neg hpa] at h1
            subst h1
            exact Or.inr ⟨List.mem_cons_self c _, Bool.eq_false_iff.mpr hpa⟩
        · rcases ih h1 with h2 | ⟨h3, h4⟩
          · exact Or.inl h2
          · exact Or.inr ⟨List.mem_cons_of_mem a h3, h4⟩

theorem collapseRuns_length_le {p : Nat → Bool} {rep : Nat} :
    ∀ l : List Nat, (collapseRuns p rep l).length ≤ l.length := by
  intro l
  induction l with
  | nil => simp [collapseRuns]
  | cons a tail ih =>
    cases tail with
    | nil =>
      by_cases hp : p a
      · simp [collapseRuns, if_pos hp]
      · simp [collapseRuns, if_neg hp]
    | cons d rest =>
      by_cases hpd : (p a && p d) = true
      · rw [collapseRuns, if_pos hpd]
        exact Nat.le_succ_of_le ih
      · rw [collapseRuns, if_neg hpd]
        simpa using ih

theorem collapseRuns_ne_nil {p : Nat → Bool} {rep : Nat} :
    ∀ {l : List Nat}, l ≠ [] → collapseRuns p rep l ≠ [] := by
  intro l
  induction l with
  | nil => intro h; exact absurd rfl h
  | cons a tail ih =>
    cases tail with
    | nil =>
      intro _
      by_cases hp : p a
      · simp [collapseRuns, if_pos hp]
      · simp [collapseRuns, if_neg hp]
    | cons d rest =>
      intro _
      by_cases hpd : (p a && p d) = true
      · rw [collapseRuns, if_pos hpd]
        exact ih (List.cons_ne_nil d rest)
      · rw [collapseRuns, if_neg hpd]
        exact List.cons_ne_nil _ _

theorem collapseRuns_head? {p : Nat → Bool} {rep : Nat} :
    ∀ l : List Nat,
      (collapseRuns p rep l).head? = l.head?.map (fun a => if p a then rep else a) := by
  intro l
  induction l with
  | nil => simp [collapseRuns]
  | cons a tail ih =>
    cases tail with
    | nil =>
      by_cases hp : p a
      · simp [collapseRuns, if_pos hp, hp]
      · simp [collapseRuns, if_neg hp, hp]
    | cons d rest =>
      by_cases hpd : (p a && p d) = true
      · rw [collapseRuns, if_pos hpd, ih]
        rw [Bool.and_eq_true] at hpd
        simp [hpd.1, hpd.2]
      · rw [collapseRuns, if_neg hpd]
        simp

theorem collapseRuns_getLast? {p : Nat → Bool} {rep : Nat} :
    ∀ l : List Nat,
      (collapseRuns p rep l).getLast? =
        l.getLast?.map (fun a => if p a then rep else a) := by
  intro l
  induction l with
  | nil => simp [collapseRuns]
  | cons a tail ih =>
    cases tail with
    | nil =>
      by_cases hp : p a
      · simp [collapseRuns, if_pos hp, hp]
      · simp [collapseRuns, if_neg hp, hp]
    | cons d rest =>
      by_cases hpd : (p a && p d) = true
      · rw [collapseRuns, if_pos hpd, ih, List.getLast?_cons_cons]
      · rw [collapseRuns, if_neg hpd]
        have hne : collapseRuns p rep (d :: rest) ≠ [] :=
          collapseRuns_ne_nil (List.cons_ne_nil d rest)
        obtain ⟨e, t, ht⟩ := List.exists_cons_of_ne_nil hne
        rw [ht, List.getLast?_cons_cons, ← ht, ih, List.getLast?_cons_cons]

theorem collapseRuns_eq_self {p : Nat → Bool} {rep : Nat} :
    ∀ {l : List Nat}, (∀ c ∈ l, p c = false) → collapseRuns p rep l = l := by
  intro l
  induction l with
  | nil => intro _; simp [collapseRuns]
  | cons a tail ih =>
    cases tail with
    | nil =>
      intro h
      have hpa : p a = false := h a (List.mem_singleton_self a)
      simp [collapseRuns, hpa]
    | cons d rest =>
      intro h
      have hpa : p a = false := h a (List.mem_cons_self a _)
      rw [collapseRuns, if_neg (by simp [hpa]), if_neg (by simp [hpa]),
        ih (fun c hc => h c (List.mem_cons_of_mem a hc))]

theorem hasPair_append_cons (a b : Nat) :
    ∀ (u v : List Nat), hasPair a b (u ++ a :: b :: v) = true := by
  intro u
  induction u with
  | nil => intro v; simp [hasPair]
  | cons x u' ih =>
    intro v
    cases u' with
    | nil => simp [hasPair]
    | cons y u'' =>
      rw [List.cons_append, List.cons_append, hasPair]
      rw [← List.cons_append]
      rw [ih v]
      simp

theorem hasPair_iff {a b : Nat} :
    ∀ {l : List Nat}, hasPair a b l = true ↔ ∃ u v, l = u ++ a :: b :: v := by
  intro l
  constructor
  · induction l with
    | nil => intro h; simp [hasPair] at h
    | cons c tail ih =>
      cases tail with
      | nil => intro h; simp [hasPair] at h
      | cons d rest =>
        intro h
        rw [hasPair, Bool.or_eq_true, Bool.and_eq_true] at h
        rcases h with ⟨h1, h2⟩ | h1
        · refine ⟨[], rest, ?_⟩
          rw [eq_of_beq h1, eq_of_beq h2]
          rfl
        · obtain ⟨u, v, huv⟩ := ih h1
          exact ⟨c :: u, v, by rw [huv]; rfl⟩
  · rintro ⟨u, v, rfl⟩
    exact hasPair_append_cons a b u v

theorem hasPair_mono_within {a b : Nat} {l₁ l₂ : List Nat} (h : l₁ <:+: l₂)
    (hl : hasPair a b l₂ = false) : hasPair a b l₁ = false := by
  cases hp : hasPair a b l₁ with
  | false => rfl
  | true =>
    exfalso
    obtain ⟨u, v, rfl⟩ := hasPair_iff.mp hp
    obtain ⟨s, t, rfl⟩ := h
    have : hasPair a b (s ++ (u ++ a :: b :: v) ++ t) = true := by
      have heq : s ++ (u ++ a :: b :: v) ++ t = (s ++ u) ++ a :: b :: (v ++ t) := by
        simp [List.append_assoc]
      rw [heq]
      exact hasPair_append_cons a b (s ++ u) (v ++ t)
    rw [hl] at this
    exact Bool.false_ne_true this

theorem hasPair_mem_right {a b : Nat} {l : List Nat} (h : hasPair a b l = true) :
    b ∈ l := by
  obtain ⟨u, v, rfl⟩ := hasPair_iff.mp h
  simp

theorem hasPair_of_not_mem {a b : Nat} {l : List Nat} (h : b ∉ l) :
    hasPair a b l = false := by
  cases hp : hasPair a b l with
  | false => rfl
  | true => exact absurd (hasPair_mem_right hp) h

theorem collapseRuns_beq_eq_self {ch : Nat} :
    ∀ {l : List Nat}, hasPair ch ch l = false →
      collapseRuns (fun c => c == ch) ch l = l := by
  intro l
  induction l with
  | nil => intro _; rfl
  | cons a tail ih =>
    cases tail with
    | nil =>
      intro _
      by_cases hp : (a == ch) = true
      · rw [collapseRuns, if_pos hp, eq_of_beq hp]
      · rw [collapseRuns, if_neg hp]
    | cons d rest =>
      intro h
      rw [hasPair, Bool.or_eq_false_iff] at h
      rw [collapseRuns, if_neg (by simp [h.1]), ih h.2]
      by_cases hp : (a == ch) = true
      · rw [if_pos hp, eq_of_beq hp]
      · rw [if_neg hp]

theorem hasPair_collapseRuns_self {ch : Nat} :
    ∀ (l : List Nat),
      hasPair ch ch (collapseRuns (fun c => c == ch) ch l) = false := by
  intro l
  induction l with
  | nil => rfl
  | cons a tail ih =>
    cases tail with
    | nil =>
      by_cases hp : (a == ch) = true
      · rw [collapseRuns, if_pos hp]; rfl
      · rw [collapseRuns, if_neg hp]; rfl
    | cons d rest =>
      by_cases hpd : ((a == ch) && (d == ch)) = true
      · rw [collapseRuns, if_pos hpd]; exact ih
      · rw [collapseRuns, if_neg hpd]
        have hne : collapseRuns (fun c => c == ch) ch (d :: rest) ≠ [] :=
          collapseRuns_ne_nil (List.cons_ne_nil d rest)
        obtain ⟨e, t, het⟩ := List.exists_cons_of_ne_nil hne
        have hhead : e = if d = ch then ch else d := by
          have hh := @collapseRuns_head? (fun c => c == ch) ch (d :: rest)
          rw [het] at hh
          simpa using hh
        rw [het, hasPair, ← het, ih, Bool.or_false]
        by_cases ha : a = ch
        · have hd : d ≠ ch := by
            intro hdd
            apply hpd
            simp [ha, hdd]
          simp [hhead, ha, hd]
        · simp [hhead, ha]

theorem hasPair_collapseRuns_preserve {p : Nat → Bool} {rep a b : Nat}
    (ha : rep ≠ a) (hb : rep ≠ b) :
    ∀ {l : List Nat}, hasPair a b l = false →
      hasPair a b (collapseRuns p rep l) = false := by
  intro l
  induction l with
  | nil => intro _; simp [collapseRuns, hasPair]
  | cons c tail ih =>
    cases tail with
    | nil =>
      intro _
      by_cases hp : p c = true
      · rw [collapseRuns, if_pos hp]; simp [hasPair]
      · rw [collapseRuns, if_neg hp]; simp [hasPair]
    | cons d rest =>
      intro h
      rw [hasPair, Bool.or_eq_false_iff] at h
      by_cases hpd : (p c && p d) = true
      · rw [collapseRuns, if_pos hpd]
        exact ih h.2
      · rw [collapseRuns, if_neg hpd]
        have hne : collapseRuns p rep (d :: rest) ≠ [] :=
          collapseRuns_ne_nil (List.cons_ne_nil d rest)
        obtain ⟨e, t, het⟩ := List.exists_cons_of_ne_nil hne
        have hhead : e = if p d = true then rep else d := by
          have hh := @collapseRuns_head? p rep (d :: rest)
          rw [het] at hh
          simpa using hh
        rw [het, hasPair, ← het, ih h.2, Bool.or_false]
        by_cases hpc : p c = true
        · rw [if_pos hpc]
          simp [ha]
        · rw [if_neg hpc]
          by_cases hpd2 : p d = true
          · rw [hhead, if_pos hpd2]
            simp [hb]
          · rw [hhead, if_neg hpd2]
            exact h.1

theorem dropWhile_eq_self_of_head {p : Nat → Bool} {l : List Nat}
    (h : ∀ c, l.head? = some c → p c = false) : l.dropWhile p = l := by
  cases l with
  | nil => rfl
  | cons a t =>
    rw [List.dropWhile_cons, if_neg (by simp [h a rfl])]

theorem stripEnds_head? {l : List Nat} {c : Nat}
    (h : (stripEnds l).head? = some c) : isStripChar c = false := by
  unfold stripEnds at h
  have hne : (l.dropWhile isStripChar).rdropWhile isStripChar ≠ [] := by
    intro hnil
    rw [hnil] at h
    exact Option.noConfusion h
  have hpre := rdropWhile_front isStripChar (l.dropWhile isStripChar)
  obtain ⟨t, ht⟩ := hpre
  have hdne : l.dropWhile isStripChar ≠ [] := by
    intro hnil
    rw [hnil, List.rdropWhile_nil] at hne
    exact hne rfl
  have hd : (l.dropWhile isStripChar).head? = some c := by
    rw [← ht]
    obtain ⟨e, t2, het⟩ := List.exists_cons_of_ne_nil hne
    rw [het] at h ⊢
    rw [List.cons_append]
    simpa using h
  have hnot := List.head_dropWhile_not isStripChar l hdne
  have hc : (l.dropWhile isStripChar).head hdne = c := by
    have := List.head?_eq_head hdne
    rw [this] at hd
    exact Option.some.inj hd
  rw [hc] at hnot
  simpa using hnot

theorem stripEnds_getLast? {l : List Nat} {c : Nat}
    (h : (stripEnds l).getLast? = some c) : isStripChar c = false := by
  unfold stripEnds at h
  have hne : (l.dropWhile isStripChar).rdropWhile isStripChar ≠ [] := by
    intro hnil
    rw [hnil] at h
    exact Option.noConfusion h
  have hnot := List.rdropWhile_last_not isStripChar (l := l.dropWhile isStripChar) hne
  have hc :
      ((l.dropWhile isStripChar).rdropWhile isStripChar).getLast hne = c := by
    have := List.getLast?_eq_getLast _ hne
    rw [this] at h
    exact Option.some.inj h
  rw [hc] at hnot
  simpa using hnot

theorem stripEnds_within (l : List Nat) : stripEnds l <:+: l := by
  unfold stripEnds
  have h1 := rdropWhile_front isStripChar (l.dropWhile isStripChar)
  have h2 : l.dropWhile isStripChar <:+ l := List.dropWhile_suffix isStripChar
  exact h1.isInfix.trans h2.isInfix

theorem dropLeadDashes_stripEnds (l : List Nat) :
    dropLeadDashes (stripEnds l) = stripEnds l := by
  apply dropWhile_eq_self_of_head
  intro c hc
  have h := stripEnds_head? hc
  simp only [isStripChar, Bool.or_eq_false_iff] at h
  simpa using h.1.2

theorem sanMain_eq (x : List Nat) :
    sanMain x = collapseDashes (stripEnds (collapseSlashes (collapseDots
      (removeInvalid (collapseWs (pyStripLower x)))))) := by
  unfold sanMain
  rw [dropLeadDashes_stripEnds]

theorem not_dot_of_not_strip {c : Nat} (h : isStripChar c = false) : ¬c = 46 := by
  intro hc
  subst hc
  exact absurd h (by decide)

theorem not_dash_of_not_strip {c : Nat} (h : isStripChar c = false) : ¬c = 45 := by
  intro hc
  subst hc
  exact absurd h (by decide)

theorem not_slash_of_not_strip {c : Nat} (h : isStripChar c = false) : ¬c = 47 := by
  intro hc
  subst hc
  exact absurd h (by decide)

theorem isInvalidChar_false {c : Nat} (h1 : isRemovedChar c = false)
    (h2 : isSpace c = false) : isInvalidChar c = false := by
  simp only [isInvalidChar, isRemovedChar, Bool.or_eq_false_iff] at h1 ⊢
  exact ⟨h1.1.1.1, h2⟩

theorem sanMain_mem {x : List Nat} {c : Nat} (h : c ∈ sanMain x) :
    c = 45 ∨ c = 46 ∨ c = 47 ∨ c ∈ x.bind pyLower := by
  rw [sanMain_eq] at h
  unfold collapseDashes at h
  rcases collapseRuns_mem h with h1 | ⟨h, _⟩
  · exact Or.inl h1
  have h := (stripEnds_within _).subset h
  unfold collapseSlashes at h
  rcases collapseRuns_mem h with h1 | ⟨h, _⟩
  · exact Or.inr (Or.inr (Or.inl h1))
  unfold collapseDots at h
  rcases collapseRuns_mem h with h1 | ⟨h, _⟩
  · exact Or.inr (Or.inl h1)
  unfold removeInvalid at h
  have h := (List.mem_filter.mp h).1
  unfold collapseWs at h
  rcases collapseRuns_mem h with h1 | ⟨h, _⟩
  · exact Or.inl h1
  unfold pyStripLower at h
  have h := (rdropWhile_front isSpace _).subset h
  have h := (List.dropWhile_suffix isSpace).subset h
  exact Or.inr (Or.inr (Or.inr h))

theorem sanMain_no_space {x : List Nat} {c : Nat} (h : c ∈ sanMain x) :
    isSpace c = false := by
  rw [sanMain_eq] at h
  unfold collapseDashes at h
  rcases collapseRuns_mem h with h1 | ⟨h, _⟩
  · subst h1; decide
  have h := (stripEnds_within _).subset h
  unfold collapseSlashes at h
  rcases collapseRuns_mem h with h1 | ⟨h, _⟩
  · subst h1; decide
  unfold collapseDots at h
  rcases collapseRuns_mem h with h1 | ⟨h, _⟩
  · subst h1; decide
  unfold removeInvalid at h
  have h := (List.mem_filter.mp h).1
  unfold collapseWs at h
  rcases collapseRuns_mem h with h1 | ⟨_, h2⟩
  · subst h1; decide
  · exact h2

theorem sanMain_no_removed {x : List Nat} {c : Nat} (h : c ∈ sanMain x) :
    isRemovedChar c = false := by
  rw [sanMain_eq] at h
  unfold collapseDashes at h
  rcases collapseRuns_mem h with h1 | ⟨h, _⟩
  · subst h1; decide
  have h := (stripEnds_within _).subset h
  unfold collapseSlashes at h
  rcases collapseRuns_mem h with h1 | ⟨h, _⟩
  · subst h1; decide
  unfold collapseDots at h
  rcases collapseRuns_mem h with h1 | ⟨h, _⟩
  · subst h1; decide
  unfold removeInvalid at h
  have h2 := (List.mem_filter.mp h).2
  simpa using h2

theorem sanMain_no_dotdot (x : List Nat) : hasPair 46 46 (sanMain x) = false := by
  rw [sanMain_eq]
  unfold collapseDashes
  apply hasPair_collapseRuns_preserve (by decide) (by decide)
  apply hasPair_mono_within (stripEnds_within _)
  unfold collapseSlashes
  apply hasPair_collapseRuns_preserve (by decide) (by decide)
  unfold collapseDots
  exact hasPair_collapseRuns_self _

theorem sanMain_no_slashslash (x : List Nat) :
    hasPair 47 47 (sanMain x) = false := by
  rw [sanMain_eq]
  unfold collapseDashes
  apply hasPair_collapseRuns_preserve (by decide) (by decide)
  apply hasPair_mono_within (stripEnds_within _)
  unfold collapseSlashes
  exact hasPair_collapseRuns_self _

theorem sanMain_no_dashdash (x : List Nat) :
    hasPair 45 45 (sanMain x) = false := by
  rw [sanMain_eq]
  unfold collapseDashes
  exact hasPair_collapseRuns_self _

theorem sanMain_head? {x : List Nat} {c : Nat} (h : (sanMain x).head? = some c) :
    isStripChar c = false := by
  rw [sanMain_eq] at h
  unfold collapseDashes at h
  rw [collapseRuns_head?] at h
  cases hd : (stripEnds (collapseSlashes (collapseDots (removeInvalid
      (collapseWs (pyStripLower x)))))).head? with
  | none => rw [hd] at h; exact Option.noConfusion h
  | some e =>
    rw [hd] at h
    have he := stripEnds_head? hd
    simp only [Option.map_some'] at h
    rw [if_neg (by simp; exact not_dash_of_not_strip he)] at h
    have hec := Option.some.inj h
    exact hec ▸ he

theorem sanMain_getLast? {x : List Nat} {c : Nat}
    (h : (sanMain x).getLast? = some c) : isStripChar c = false := by
  rw [sanMain_eq] at h
  unfold collapseDashes at h
  rw [collapseRuns_getLast?] at h
  cases hd : (stripEnds (collapseSlashes (collapseDots (removeInvalid
      (collapseWs (pyStripLower x)))))).getLast? with
  | none => rw [hd] at h; exact Option.noConfusion h
  | some e =>
    rw [hd] at h
    have he := stripEnds_getLast? hd
    simp only [Option.map_some'] at h
    rw [if_neg (by simp; exact not_dash_of_not_strip he)] at h
    have hec := Option.some.inj h
    exact hec ▸ he

theorem sanMain_length_le (x : List Nat) :
    (sanMain x).length ≤ (x.bind pyLower).length := by
  rw [sanMain_eq]
  unfold collapseDashes stripEnds collapseSlashes collapseDots removeInvalid
    collapseWs pyStripLower
  refine le_trans (collapseRuns_length_le _) ?_
  refine le_trans (List.IsPrefix.length_le (rdropWhile_front _ _)) ?_
  refine le_trans (List.IsSuffix.length_le (List.dropWhile_suffix _)) ?_
  refine le_trans (collapseRuns_length_le _) ?_
  refine le_trans (collapseRuns_length_le _) ?_
  refine le_trans (List.length_filter_le _ _) ?_
  refine le_trans (collapseRuns_length_le _) ?_
  refine le_trans (List.IsPrefix.length_le (rdropWhile_front _ _)) ?_
  exact List.IsSuffix.length_le (List.dropWhile_suffix _)

theorem sanitize_eq_of_le {x : List Nat} (hlen : (x.bind pyLower).length ≤ 200) :
    _sanitize_branch_name x = if (sanMain x).isEmpty then feature else sanMain x := by
  unfold _sanitize_branch_name
  have h9 : (if (sanMain x).isEmpty then feature else sanMain x).length ≤ 200 := by
    by_cases he : (sanMain x).isEmpty = true
    · rw [if_pos he]; decide
    · rw [if_neg he]; exact le_trans (sanMain_length_le x) hlen
  rw [if_neg (by omega)]

theorem pyLower_ge_32 {a : Nat} (h : 32 ≤ a) : ∀ c ∈ pyLower a, 32 ≤ c := by
  intro c hc
  unfold pyLower at hc
  by_cases h304 : a = 304
  · rw [if_pos h304] at hc
    simp only [List.mem_cons, List.not_mem_nil, or_false] at hc
    rcases hc with rfl | rfl <;> omega
  · rw [if_neg h304] at hc
    by_cases hAZ : 65 ≤ a ∧ a ≤ 90
    · rw [if_pos hAZ] at hc
      simp only [List.mem_singleton] at hc
      omega
    · rw [if_neg hAZ] at hc
      simp only [List.mem_singleton] at hc
      omega

theorem validate_sanitize_ok {x : List Nat} (hc : ∀ c ∈ x, 32 ≤ c)
    (hlen : (x.bind pyLower).length ≤ 200) :
    (validate_branch_name (_sanitize_branch_name x)).1 = true := by
  rw [sanitize_eq_of_le hlen]
  by_cases he : (sanMain x).isEmpty = true
  · rw [if_pos he]; decide
  · rw [if_neg he]
    have hne : sanMain x ≠ [] := by
      intro hn
      rw [hn] at he
      exact he rfl
    obtain ⟨hd0, tl0, hcons⟩ := List.exists_cons_of_ne_nil hne
    have hhead : (sanMain x).head? = some hd0 := by rw [hcons]; rfl
    have hlast : (sanMain x).getLast? = some ((sanMain x).getLast hne) :=
      List.getLast?_eq_getLast _ hne
    have hheadF := sanMain_head? hhead
    have hlastF := sanMain_getLast? hlast
    have hlenr : (sanMain x).length ≤ 200 := le_trans (sanMain_length_le x) hlen
    have hinv : (sanMain x).any isInvalidChar = false := by
      rw [List.any_eq_false]
      intro c hcr
      simp [isInvalidChar_false (sanMain_no_removed hcr) (sanMain_no_space hcr)]
    have h123 : (123 : Nat) ∉ sanMain x := by
      intro hmem
      exact absurd (sanMain_no_removed hmem) (by decide)
    have hctrl : (sanMain x).any (fun c => decide (c < 32)) = false := by
      rw [List.any_eq_false]
      intro c hcr
      simp only [decide_eq_true_eq]
      rcases sanMain_mem hcr with h1 | h1 | h1 | h1
      · omega
      · omega
      · omega
      · rw [List.mem_bind] at h1
        obtain ⟨a, ha, hc2⟩ := h1
        have := pyLower_ge_32 (hc a ha) c hc2
        omega
    unfold validate_branch_name
    rw [if_neg he,
      if_neg (show ¬((sanMain x).head? == some 46) = true by
        rw [hhead]; simp; exact not_dot_of_not_strip hheadF),
      if_neg (show ¬((sanMain x).getLast? == some 46) = true by
        rw [hlast]; simp; exact not_dot_of_not_strip hlastF),
      if_neg (show ¬hasPair 46 46 (sanMain x) = true by
        simp [sanMain_no_dotdot x]),
      if_neg (show ¬(sanMain x).any isInvalidChar = true by simp [hinv]),
      if_neg (show ¬hasPair 64 123 (sanMain x) = true by
        simp [hasPair_of_not_mem h123]),
      if_neg (show ¬((sanMain x).head? == some 45) = true by
        rw [hhead]; simp; exact not_dash_of_not_strip hheadF),
      if_neg (show ¬((sanMain x).getLast? == some 45) = true by
        rw [hlast]; simp; exact not_dash_of_not_strip hlastF),
      if_neg (show ¬((sanMain x).getLast? == some 47) = true by
        rw [hlast]; simp; exact not_slash_of_not_strip hlastF),
      if_neg (show ¬hasPair 47 47 (sanMain x) = true by
        simp [sanMain_no_slashslash x]),
      if_neg (show ¬(250 < (sanMain x).length) by omega),
      if_neg (show ¬(sanMain x).any (fun c => decide (c < 32)) = true by
        simp [hctrl])]

theorem bind_eq_self_of_forall {f : Nat → List Nat} :
    ∀ {l : List Nat}, (∀ c ∈ l, f c = [c]) → l.bind f = l := by
  intro l
  induction l with
  | nil => intro _; rfl
  | cons a t ih =>
    intro h
    rw [show (a :: t).bind f = f a ++ t.bind f from rfl,
      h a (List.mem_cons_self a t),
      ih (fun c hc => h c (List.mem_cons_of_mem a hc)), List.singleton_append]

theorem mem_of_head?_eq {l : List Nat} {c : Nat} (h : l.head? = some c) : c ∈ l := by
  cases l with
  | nil => exact Option.noConfusion h
  | cons a t => exact (Option.some.inj h) ▸ List.mem_cons_self a t

theorem mem_of_getLast?_eq {l : List Nat} {c : Nat}
    (h : l.getLast? = some c) : c ∈ l := by
  cases hl : l with
  | nil => rw [hl] at h; exact Option.noConfusion h
  | cons a t =>
    rw [hl] at h
    have hne : a :: t ≠ [] := List.cons_ne_nil a t
    rw [List.getLast?_eq_getLast _ hne] at h
    exact (Option.some.inj h) ▸ List.getLast_mem hne

theorem rdropWhile_eq_self_of_getLast {p : Nat → Bool} {l : List Nat}
    (h : ∀ c, l.getLast? = some c → p c = false) : l.rdropWhile p = l := by
  rw [List.rdropWhile_eq_self_iff]
  intro hl
  have := h (l.getLast hl) (List.getLast?_eq_getLast _ hl)
  simp [this]

theorem pyLower_mem_fixed {a c : Nat} (h : c ∈ pyLower a) : pyLower c = [c] := by
  unfold pyLower at h
  by_cases h304 : a = 304
  · rw [if_pos h304] at h
    simp only [List.mem_cons, List.not_mem_nil, or_false] at h
    rcases h with rfl | rfl
    · decide
    · decide
  · rw [if_neg h304] at h
    by_cases hAZ : 65 ≤ a ∧ a ≤ 90
    · rw [if_pos hAZ] at h
      simp only [List.mem_singleton] at h
      subst h
      unfold pyLower
      rw [if_neg (by omega), if_neg (by omega)]
    · rw [if_neg hAZ] at h
      simp only [List.mem_singleton] at h
      subst h
      unfold pyLower
      rw [if_neg h304, if_neg hAZ]

theorem sanMain_fixpoint {l : List Nat}
    (hsp : ∀ c ∈ l, isSpace c = false)
    (hrm : ∀ c ∈ l, isRemovedChar c = false)
    (hlw : ∀ c ∈ l, pyLower c = [c])
    (h46 : hasPair 46 46 l = false)
    (h47 : hasPair 47 47 l = false)
    (h45 : hasPair 45 45 l = false)
    (hh : ∀ c, l.head? = some c → isStripChar c = false)
    (hl : ∀ c, l.getLast? = some c → isStripChar c = false) :
    sanMain l = l := by
  have e1 : pyStripLower l = l := by
    unfold pyStripLower
    rw [bind_eq_self_of_forall hlw,
      dropWhile_eq_self_of_head (fun c hc => hsp c (mem_of_head?_eq hc)),
      rdropWhile_eq_self_of_getLast (fun c hc => hsp c (mem_of_getLast?_eq hc))]
  have e2 : collapseWs l = l := collapseRuns_eq_self hsp
  have e3 : removeInvalid l = l := by
    unfold removeInvalid
    rw [List.filter_eq_self.mpr]
    intro c hc
    simp [hrm c hc]
  have e4 : collapseDots l = l := collapseRuns_beq_eq_self h46
  have e5 : collapseSlashes l = l := collapseRuns_beq_eq_self h47
  have e6 : stripEnds l = l := by
    unfold stripEnds
    rw [dropWhile_eq_self_of_head hh, rdropWhile_eq_self_of_getLast hl]
  have e7 : dropLeadDashes l = l := by
    unfold dropLeadDashes
    apply dropWhile_eq_self_of_head
    intro c hc
    simpa using not_dash_of_not_strip (hh c hc)
  have e8 : collapseDashes l = l := collapseRuns_beq_eq_self h45
  unfold sanMain
  rw [e1, e2, e3, e4, e5, e6, e7, e8]

theorem sanMain_pyLower_fixed {x : List Nat} {c : Nat} (h : c ∈ sanMain x) :
    pyLower c = [c] := by
  rcases sanMain_mem h with h1 | h1 | h1 | h1
  · subst h1; decide
  · subst h1; decide
  · subst h1; decide
  · rw [List.mem_bind] at h1
    obtain ⟨a, _, hc2⟩ := h1
    exact pyLower_mem_fixed hc2

theorem sanitize_idempotent_of_le {x : List Nat}
    (hlen : (x.bind pyLower).length ≤ 200) :
    _sanitize_branch_name (_sanitize_branch_name x) = _sanitize_branch_name x := by
  rw [sanitize_eq_of_le hlen]
  by_cases he : (sanMain x).isEmpty = true
  · rw [if_pos he]
    decide
  · rw [if_neg he]
    have hbind : (sanMain x).bind pyLower = sanMain x :=
      bind_eq_self_of_forall (fun c hc => sanMain_pyLower_fixed hc)
    have hrlen : ((sanMain x).bind pyLower).length ≤ 200 := by
      rw [hbind]
      exact le_trans (sanMain_length_le x) hlen
    rw [sanitize_eq_of_le hrlen]
    have hfix : sanMain (sanMain x) = sanMain x :=
      sanMain_fixpoint (fun c hc => sanMain_no_space hc)
        (fun c hc => sanMain_no_removed hc)
        (fun c hc => sanMain_pyLower_fixed hc)
        (sanMain_no_dotdot x) (sanMain_no_slashslash x) (sanMain_no_dashdash x)
        (fun c hc => sanMain_head? hc) (fun c hc => sanMain_getLast? hc)
    rw [hfix, if_neg he]

theorem natDigitsGo_mem :
    ∀ (fuel n : Nat) (acc : List Nat) (c : Nat), c ∈ natDigitsGo fuel n acc →
      c ∈ acc ∨ (48 ≤ c ∧ c ≤ 57) := by
  intro fuel
  induction fuel with
  | zero => intro n acc c h; exact Or.inl h
  | succ f ih =>
    intro n acc c h
    rw [natDigitsGo] at h
    by_cases hn : (n == 0) = true
    · rw [if_pos hn] at h; exact Or.inl h
    · rw [if_neg hn] at h
      rcases ih _ _ _ h with h1 | h1
      · rcases List.mem_cons.mp h1 with h2 | h2
        · subst h2
          have hm : n % 10 < 10 := Nat.mod_lt n (by omega)
          right
          omega
        · exact Or.inl h2
      · exact Or.inr h1

theorem natDigits_mem {n c : Nat} (h : c ∈ natDigits n) : 48 ≤ c ∧ c ≤ 57 := by
  unfold natDigits at h
  by_cases hn : (n == 0) = true
  · rw [if_pos hn] at h
    simp only [List.mem_singleton] at h
    omega
  · rw [if_neg hn] at h
    rcases natDigitsGo_mem _ _ _ _ h with h1 | h1
    · simp at h1
    · exact h1

theorem natDigitsGo_length_ge :
    ∀ (fuel n : Nat) (acc : List Nat), acc.length ≤ (natDigitsGo fuel n acc).length := by
  intro fuel
  induction fuel with
  | zero => intro n acc; exact le_refl _
  | succ f ih =>
    intro n acc
    rw [natDigitsGo]
    by_cases hn : (n == 0) = true
    · rw [if_pos hn]
    · rw [if_neg hn]
      have := ih (n / 10) ((48 + n % 10) :: acc)
      simp only [List.length_cons] at this
      omega

theorem natDigits_ne_nil (n : Nat) : natDigits n ≠ [] := by
  unfold natDigits
  by_cases hn : (n == 0) = true
  · rw [if_pos hn]; simp
  · rw [if_neg hn, natDigitsGo, if_neg hn]
    intro hnil
    have := natDigitsGo_length_ge n (n / 10) [48 + n % 10]
    rw [hnil] at this
    simp at this

theorem natDigitsGo_length_le :
    ∀ (k n fuel : Nat) (acc : List Nat), n < 10 ^ k →
      (natDigitsGo fuel n acc).length ≤ k + acc.length := by
  intro k
  induction k with
  | zero =>
    intro n fuel acc h
    have hn0 : n = 0 := by simpa using h
    subst hn0
    cases fuel with
    | zero => simp [natDigitsGo]
    | succ f => rw [natDigitsGo, if_pos (by simp)]; omega
  | succ k ih =>
    intro n fuel acc h
    cases fuel with
    | zero => simp [natDigitsGo]
    | succ f =>
      rw [natDigitsGo]
      by_cases hn : (n == 0) = true
      · rw [if_pos hn]; omega
      · rw [if_neg hn]
        have hdiv : n / 10 < 10 ^ k := by
          rw [Nat.div_lt_iff_lt_mul (by omega)]
          calc n < 10 ^ (k + 1) := h
          _ = 10 ^ k * 10 := by ring
        have := ih (n / 10) f ((48 + n % 10) :: acc) hdiv
        simp only [List.length_cons] at this
        omega

theorem natDigits_length_le_four {n : Nat} (h : n ≤ 1000) :
    (natDigits n).length ≤ 4 := by
  unfold natDigits
  by_cases hn : (n == 0) = true
  · rw [if_pos hn]; simp
  · rw [if_neg hn]
    have := natDigitsGo_length_le 4 n (n + 1) [] (by omega)
    simpa using this

theorem sanitize_length_le (x : List Nat) :
    (_sanitize_branch_name x).length ≤ 200 := by
  unfold _sanitize_branch_name
  by_cases h : 200 < (if (sanMain x).isEmpty then feature else sanMain x).length
  · rw [if_pos h]
    refine le_trans (List.IsPrefix.length_le (rdropWhile_front _ _)) ?_
    have := List.length_take 200 (if (sanMain x).isEmpty then feature else sanMain x)
    omega
  · rw [if_neg h]
    omega

theorem validate_ok_of_parts {name : List Nat}
    (p1 : name.isEmpty = false) (p2 : (name.head? == some 46) = false)
    (p3 : (name.getLast? == some 46) = false) (p4 : hasPair 46 46 name = false)
    (p5 : name.any isInvalidChar = false) (p6 : hasPair 64 123 name = false)
    (p7 : (name.head? == some 45) = false) (p8 : (name.getLast? == some 45) = false)
    (p9 : (name.getLast? == some 47) = false) (p10 : hasPair 47 47 name = false)
    (p11 : name.length ≤ 250)
    (p12 : name.any (fun c => decide (c < 32)) = false) :
    (validate_branch_name name).1 = true := by
  unfold validate_branch_name
  rw [if_neg (by simp [p1]), if_neg (by simp [p2]), if_neg (by simp [p3]),
    if_neg (by simp [p4]), if_neg (by simp [p5]), if_neg (by simp [p6]),
    if_neg (by simp [p7]), if_neg (by simp [p8]), if_neg (by simp [p9]),
    if_neg (by simp [p10]), if_neg (by omega), if_neg (by simp [p12])]

theorem validate_ok_parts {name : List Nat}
    (h : (validate_branch_name name).1 = true) :
    name.isEmpty = false ∧ (name.head? == some 46) = false ∧
    (name.getLast? == some 46) = false ∧ hasPair 46 46 name = false ∧
    name.any isInvalidChar = false ∧ hasPair 64 123 name = false ∧
    (name.head? == some 45) = false ∧ (name.getLast? == some 45) = false ∧
    (name.getLast? == some 47) = false ∧ hasPair 47 47 name = false ∧
    name.length ≤ 250 ∧ name.any (fun c => decide (c < 32)) = false := by
  unfold validate_branch_name at h
  by_cases h1 : name.isEmpty = true
  · rw [if_pos h1] at h
    exact absurd h (by simp)
  rw [if_neg h1] at h
  by_cases h2 : (name.head? == some 46) = true
  · rw [if_pos h2] at h
    exact absurd h (by simp)
  rw [if_neg h2] at h
  by_cases h3 : (name.getLast? == some 46) = true
  · rw [if_pos h3] at h
    exact absurd h (by simp)
  rw [if_neg h3] at h
  by_cases h4 : hasPair 46 46 name = true
  · rw [if_pos h4] at h
    exact absurd h (by simp)
  rw [if_neg h4] at h
  by_cases h5 : name.any isInvalidChar = true
  · rw [if_pos h5] at h
    exact absurd h (by simp)
  rw [if_neg h5] at h
  by_cases h6 : hasPair 64 123 name = true
  · rw [if_pos h6] at h
    exact absurd h (by simp)
  rw [if_neg h6] at h
  by_cases h7 : (name.head? == some 45) = true
  · rw [if_pos h7] at h
    exact absurd h (by simp)
  rw [if_neg h7] at h
  by_cases h8 : (name.getLast? == some 45) = true
  · rw [if_pos h8] at h
    exact absurd h (by simp)
  rw [if_neg h8] at h
  by_cases h9 : (name.getLast? == some 47) = true
  · rw [if_pos h9] at h
    exact absurd h (by simp)
  rw [if_neg h9] at h
  by_cases h10 : hasPair 47 47 name = true
  · rw [if_pos h10] at h
    exact absurd h (by simp)
  rw [if_neg h10] at h
  by_cases h11 : 250 < name.length
  · rw [if_pos h11] at h
    exact absurd h (by simp)
  rw [if_neg h11] at h
  by_cases h12 : name.any (fun c => decide (c < 32)) = true
  · rw [if_pos h12] at h
    exact absurd h (by simp)
  rw [if_neg h12] at h
  exact ⟨Bool.eq_false_iff.mpr h1, Bool.eq_false_iff.mpr h2,
    Bool.eq_false_iff.mpr h3, Bool.eq_false_iff.mpr h4, Bool.eq_false_iff.mpr h5,
    Bool.eq_false_iff.mpr h6, Bool.eq_false_iff.mpr h7, Bool.eq_false_iff.mpr h8,
    Bool.eq_false_iff.mpr h9, Bool.eq_false_iff.mpr h10, by omega,
    Bool.eq_false_iff.mpr h12⟩

theorem hasPair_append_false {a b : Nat} {l₂ : List Nat}
    (h2 : hasPair a b l₂ = false)
    (hbd : ∀ d, l₂.head? = some d → ¬d = b) :
    ∀ {l₁ : List Nat}, hasPair a b l₁ = false →
      hasPair a b (l₁ ++ l₂) = false := by
  intro l₁
  induction l₁ with
  | nil => intro _; simpa using h2
  | cons c t ih =>
    cases t with
    | nil =>
      intro _
      cases l₂ with
      | nil => simp [hasPair]
      | cons d r =>
        have hdb : ¬d = b := hbd d rfl
        rw [List.singleton_append, hasPair, h2]
        simp [hdb]
    | cons e t' =>
      intro h1
      rw [hasPair, Bool.or_eq_false_iff] at h1
      rw [List.cons_append, List.cons_append, hasPair, ← List.cons_append, ih h1.2,
        Bool.or_false]
      exact h1.1

theorem getLast?_append_cons (b : Nat) (l₂ : List Nat) :
    ∀ l₁ : List Nat, (l₁ ++ b :: l₂).getLast? = (b :: l₂).getLast? := by
  intro l₁
  induction l₁ with
  | nil => rfl
  | cons x t ih =>
    have hne : t ++ b :: l₂ ≠ [] := by simp
    obtain ⟨z, w, hzw⟩ := List.exists_cons_of_ne_nil hne
    rw [List.cons_append, hzw, List.getLast?_cons_cons, ← hzw, ih]

theorem isInvalidChar_digit {c : Nat} (h48 : 48 ≤ c) (h57 : c ≤ 57) :
    isInvalidChar c = false := by
  have : c = 48 ∨ c = 49 ∨ c = 50 ∨ c = 51 ∨ c = 52 ∨ c = 53 ∨ c = 54 ∨
      c = 55 ∨ c = 56 ∨ c = 57 := by omega
  rcases this with rfl | rfl | rfl | rfl | rfl | rfl | rfl | rfl | rfl | rfl <;> decide

theorem validate_append_digits {s ds : List Nat}
    (hs : (validate_branch_name s).1 = true) (hslen : s.length ≤ 200)
    (hds : ds ≠ []) (hdig : ∀ c ∈ ds, 48 ≤ c ∧ c ≤ 57) (hdlen : ds.length ≤ 4) :
    (validate_branch_name (s ++ 45 :: ds)).1 = true := by
  obtain ⟨p1, p2, p3, p4, p5, p6, p7, p8, p9, p10, p11, p12⟩ := validate_ok_parts hs
  have hsne : s ≠ [] := by
    intro hnil
    rw [hnil] at p1
    simp at p1
  obtain ⟨a, s', rfl⟩ := List.exists_cons_of_ne_nil hsne
  obtain ⟨d0, ds', rfl⟩ := List.exists_cons_of_ne_nil hds
  have hgl : ((a :: s') ++ 45 :: d0 :: ds').getLast? = (d0 :: ds').getLast? := by
    rw [getLast?_append_cons, List.getLast?_cons_cons]
  have hne2 : (d0 :: ds' : List Nat) ≠ [] := by simp
  have hglv : ((a :: s') ++ 45 :: d0 :: ds').getLast? =
      some ((d0 :: ds').getLast hne2) := by
    rw [hgl]
    exact List.getLast?_eq_getLast _ hne2
  have hlstdig := hdig _ (List.getLast_mem hne2)
  have h46X : (46 : Nat) ∉ (45 :: d0 :: ds' : List Nat) := by
    intro hmem
    rcases List.mem_cons.mp hmem with hx | hx
    · omega
    · have := hdig _ hx; omega
  have h123X : (123 : Nat) ∉ (45 :: d0 :: ds' : List Nat) := by
    intro hmem
    rcases List.mem_cons.mp hmem with hx | hx
    · omega
    · have := hdig _ hx; omega
  have h47X : (47 : Nat) ∉ (45 :: d0 :: ds' : List Nat) := by
    intro hmem
    rcases List.mem_cons.mp hmem with hx | hx
    · omega
    · have := hdig _ hx; omega
  have hbd45 : ∀ d : Nat, (45 :: d0 :: ds' : List Nat).head? = some d → ¬d = 46 := by
    intro d hd
    have : (45 : Nat) = d := Option.some.inj hd
    omega
  have hbd123 : ∀ d : Nat, (45 :: d0 :: ds' : List Nat).head? = some d → ¬d = 123 := by
    intro d hd
    have : (45 : Nat) = d := Option.some.inj hd
    omega
  have hbd47 : ∀ d : Nat, (45 :: d0 :: ds' : List Nat).head? = some d → ¬d = 47 := by
    intro d hd
    have : (45 : Nat) = d := Option.some.inj hd
    omega
  have hanyX : (45 :: d0 :: ds' : List Nat).any isInvalidChar = false := by
    rw [List.any_eq_false]
    intro c hcm
    rcases List.mem_cons.mp hcm with hx | hx
    · subst hx; decide
    · have := hdig _ hx
      simp [isInvalidChar_digit this.1 this.2]
  have hctrlX : (45 :: d0 :: ds' : List Nat).any (fun c => decide (c < 32)) = false := by
    rw [List.any_eq_false]
    intro c hcm
    simp only [decide_eq_true_eq]
    rcases List.mem_cons.mp hcm with hx | hx
    · omega
    · have := hdig _ hx; omega
  apply validate_ok_of_parts
  · simp
  · rw [List.cons_append]
    simpa using p2
  · rw [hglv]
    simp
    omega
  · exact hasPair_append_false (hasPair_of_not_mem h46X) hbd45 p4
  · rw [List.any_append, p5, hanyX]
    rfl
  · exact hasPair_append_false (hasPair_of_not_mem h123X) hbd123 p6
  · rw [List.cons_append]
    simpa using p7
  · rw [hglv]
    simp
    omega
  · rw [hglv]
    simp
    omega
  · exact hasPair_append_false (hasPair_of_not_mem h47X) hbd47 p10
  · simp only [List.length_append, List.length_cons] at hslen hdlen ⊢
    omega
  · rw [List.any_append, p12, hctrlX]
    rfl

theorem genLoop_spec (s : List Nat) (existing : List (List Nat)) (ts : List Nat) :
    ∀ (fuel counter : Nat),
      (∃ j, counter ≤ j ∧ j < counter + fuel ∧ (s ++ 45 :: natDigits j) ∉ existing) →
      ∃ j, counter ≤ j ∧ j < counter + fuel ∧
        genLoop s existing ts counter fuel = s ++ 45 :: natDigits j ∧
        genLoop s existing ts counter fuel ∉ existing := by
  intro fuel
  induction fuel with
  | zero =>
    intro counter h
    obtain ⟨j, hj1, hj2, _⟩ := h
    omega
  | succ f ih =>
    intro counter h
    obtain ⟨j, hj1, hj2, hj3⟩ := h
    by_cases hc : (s ++ 45 :: natDigits counter) ∈ existing
    · have hjc : counter + 1 ≤ j := by
        rcases Nat.eq_or_lt_of_le hj1 with heq | hlt
        · exfalso
          rw [← heq] at hj3
          exact hj3 hc
        · omega
      obtain ⟨j', h1, h2, h3, h4⟩ := ih (counter + 1) ⟨j, hjc, by omega, hj3⟩
      refine ⟨j', by omega, by omega, ?_, ?_⟩
      · simp only [genLoop]
        rw [if_pos hc]
        exact h3
      · simp only [genLoop]
        rw [if_pos hc]
        exact h4
    · refine ⟨counter, le_refl _, by omega, ?_, ?_⟩
      · simp only [genLoop]
        rw [if_neg hc]
      · simp only [genLoop]
        rw [if_neg hc]
        exact hc

theorem generate_unique_props {base repo_url ts : List Nat}
    {existing : List (List Nat)} (hne : existing ≠ [])
    (hfree : ∃ j, 1 ≤ j ∧ j ≤ 1000 ∧
      (_sanitize_branch_name base ++ 45 :: natDigits j) ∉ existing) :
    generate_unique_branch_name base repo_url existing ts ∉ existing ∧
    (_sanitize_branch_name base ∉ existing →
      generate_unique_branch_name base repo_url existing ts =
        _sanitize_branch_name base) ∧
    ((validate_branch_name (_sanitize_branch_name base)).1 = true →
      (validate_branch_name
        (generate_unique_branch_name base repo_url existing ts)).1 = true) := by
  unfold generate_unique_branch_name
  rw [if_neg (by simpa using hne)]
  by_cases hmem : _sanitize_branch_name base ∉ existing
  · rw [if_pos hmem]
    exact ⟨hmem, fun _ => rfl, fun hv => hv⟩
  · rw [if_neg hmem]
    obtain ⟨j, hj1, hj2, h3, h4⟩ := genLoop_spec _ existing ts 1000 1 (by
      obtain ⟨j, ha, hb, hc⟩ := hfree
      exact ⟨j, ha, by omega, hc⟩)
    refine ⟨h4, fun hno => absurd hno hmem, fun hv => ?_⟩
    rw [h3]
    exact validate_append_digits hv (sanitize_length_le base) (natDigits_ne_nil j)
      (fun c hc => natDigits_mem hc) (natDigits_length_le_four (by omega))

end GitOps


namespace ErrHandler

theorem retryGo_succ_eq {α : Type} (t : ErrorType) (f : Nat → Except PyError α)
    (attempt fuel : Nat) :
    retryGo t f attempt (fuel + 1) =
      match f attempt with
      | Except.ok v => (Except.ok v, 1)
      | Except.error e =>
        if !_is_retryable_error e t then (Except.error e, 1)
        else if fuel = 0 then (Except.error e, 1)
        else
          let r := retryGo t f (attempt + 1) fuel
          (r.1, r.2 + 1) := by
  rfl

theorem retryGo_all_fail {α : Type} {t : ErrorType} {f : Nat → Except PyError α}
    {e : PyError} (hr : _is_retryable_error e t = true)
    (hf : ∀ i, f i = Except.error e) :
    ∀ (fuel attempt : Nat), 1 ≤ fuel →
      retryGo t f attempt fuel = (Except.error e, fuel) := by
  intro fuel
  induction fuel with
  | zero => intro attempt h; omega
  | succ n ih =>
    intro attempt _
    rw [retryGo_succ_eq, hf attempt]
    simp only [hr, Bool.not_true]
    rw [if_neg (by simp)]
    cases n with
    | zero => rw [if_pos rfl]
    | succ m =>
      rw [if_neg (by omega), ih (attempt + 1) (by omega)]

theorem retryGo_fail_fast {α : Type} {t : ErrorType} {f : Nat → Except PyError α}
    {e : PyError} {attempt : Nat} (hr : _is_retryable_error e t = false)
    (hf : f attempt = Except.error e) :
    ∀ fuel, 1 ≤ fuel → retryGo t f attempt fuel = (Except.error e, 1) := by
  intro fuel
  cases fuel with
  | zero => intro h; omega
  | succ n =>
    intro _
    rw [retryGo_succ_eq, hf]
    simp only [hr, Bool.not_false]
    rw [if_pos trivial]

theorem max_attempts_pos (t : ErrorType) : 1 ≤ max_attempts t := by
  cases t <;> decide

end ErrHandler

namespace GHManager

theorem lookupFile_setFile_self :
    ∀ (repo : List (String × String)) (p c : String),
      lookupFile (setFile repo p c) p = some c := by
  intro repo
  induction repo with
  | nil => intro p c; simp [setFile, lookupFile]
  | cons kv rest ih =>
    intro p c
    obtain ⟨q, v⟩ := kv
    by_cases hq : (q == p) = true
    · rw [setFile, if_pos hq]
      simp [lookupFile, hq]
    · rw [setFile, if_neg hq]
      simp only [lookupFile, List.find?]
      rw [show (q == p) = false from Bool.eq_false_iff.mpr hq]
      exact ih p c

theorem lookupFile_setFile_other :
    ∀ (repo : List (String × String)) (p c q : String), ¬q = p →
      lookupFile (setFile repo p c) q = lookupFile repo q := by
  intro repo
  induction repo with
  | nil =>
    intro p c q hqp
    simp only [setFile, lookupFile, List.find?]
    rw [show (p == q) = false from beq_eq_false_iff_ne.mpr (fun h => hqp h.symm)]
  | cons kv rest ih =>
    intro p c q hqp
    obtain ⟨r, v⟩ := kv
    by_cases hr : (r == p) = true
    · rw [setFile, if_pos hr]
      have hrq : (r == q) = false := by
        have : r = p := eq_of_beq hr
        subst this
        exact beq_eq_false_iff_ne.mpr (fun h => hqp h.symm)
      simp only [lookupFile, List.find?, hrq]
    · rw [setFile, if_neg hr]
      simp only [lookupFile, List.find?]
      cases hrq : (r == q) with
      | true => rfl
      | false => exact ih p c q hqp

theorem processFile_path {repo : List (String × String)} {fault : FileFault}
    {p c : String} :
    ((processFile repo fault p c).1.elim (fun o => o.path) (fun o => o.path)) = p := by
  rcases fault with ⟨g, w⟩
  cases g <;> cases w
  all_goals simp only [processFile, attemptCreate]
  all_goals repeat' split
  all_goals rfl

theorem commitLoop_perm (faults : String → FileFault) :
    ∀ (files : List (String × String)) (repo : List (String × String)),
      ((commitLoop faults repo files).committed.map (fun o => o.path) ++
        (commitLoop faults repo files).failed.map (fun o => o.path)).Perm
        (files.map Prod.fst) := by
  intro files
  induction files with
  | nil => intro repo; simp [commitLoop]
  | cons pc rest ih =>
    intro repo
    obtain ⟨p, c⟩ := pc
    have hpath := @processFile_path repo (faults p) p c
    simp only [commitLoop]
    cases hstep : (processFile repo (faults p) p c).1 with
    | inl co =>
      rw [hstep] at hpath
      simp only [Sum.elim_inl] at hpath
      simp only [List.map_cons, List.cons_append]
      rw [hpath]
      exact (ih _).cons p
    | inr ff =>
      rw [hstep] at hpath
      simp only [Sum.elim_inr] at hpath
      simp only [List.map_cons]
      rw [hpath]
      exact List.Perm.trans List.perm_middle ((ih _).cons p)


theorem processFile_noFault_sets (repo : List (String × String)) (p c : String) :
    lookupFile (processFile repo ⟨GetFault.ok, WriteFault.ok⟩ p c).2.1 p = some c := by
  cases hl : lookupFile repo p with
  | none =>
    simp only [processFile, hl]
    exact lookupFile_setFile_self repo p c
  | some v =>
    simp only [processFile, hl]
    by_cases hv : (v == c) = true
    · rw [if_pos hv]
      show lookupFile repo p = some c
      rw [hl, (show v = c from eq_of_beq hv)]
    · rw [if_neg hv]
      exact lookupFile_setFile_self repo p c

theorem processFile_repo_other (repo : List (String × String)) (fault : FileFault)
    (p c q : String) (hqp : ¬q = p) :
    lookupFile (processFile repo fault p c).2.1 q = lookupFile repo q := by
  rcases fault with ⟨g, w⟩
  cases g <;> cases w
  all_goals simp only [processFile, attemptCreate]
  all_goals repeat' split
  all_goals first
    | rfl
    | exact lookupFile_setFile_other repo p c q hqp

theorem commitLoop_repo_eq (faults : String → FileFault)
    (repo : List (String × String)) (pc : String × String)
    (rest : List (String × String)) :
    (commitLoop faults repo (pc :: rest)).repo =
      (commitLoop faults (processFile repo (faults pc.1) pc.1 pc.2).2.1 rest).repo := by
  obtain ⟨p, c⟩ := pc
  simp only [commitLoop]
  cases (processFile repo (faults p) p c).1 <;> rfl

theorem commitLoop_lookup_notin (faults : String → FileFault) :
    ∀ (files : List (String × String)) (repo : List (String × String)) (q : String),
      q ∉ files.map Prod.fst →
      lookupFile (commitLoop faults repo files).repo q = lookupFile repo q := by
  intro files
  induction files with
  | nil => intro repo q _; rfl
  | cons pc rest ih =>
    intro repo q hq
    obtain ⟨p, c⟩ := pc
    simp only [List.map_cons, List.mem_cons, not_or] at hq
    rw [commitLoop_repo_eq, ih _ q hq.2,
      processFile_repo_other repo (faults p) p c q hq.1]

theorem commitLoop_noFaults_sets :
    ∀ (files : List (String × String)) (repo : List (String × String)),
      (files.map Prod.fst).Nodup →
      ∀ p c, (p, c) ∈ files →
        lookupFile (commitLoop noFaults repo files).repo p = some c := by
  intro files
  induction files with
  | nil => intro repo _ p c h; simp at h
  | cons pc rest ih =>
    intro repo hnd p c hmem
    obtain ⟨p0, c0⟩ := pc
    rw [List.map_cons] at hnd
    have hnd2 := List.nodup_cons.mp hnd
    rcases List.mem_cons.mp hmem with heq | htail
    · injection heq with h1 h2
      subst h1
      subst h2
      rw [commitLoop_repo_eq, commitLoop_lookup_notin noFaults rest _ p hnd2.1]
      exact processFile_noFault_sets repo p c
    · rw [commitLoop_repo_eq]
      exact ih _ hnd2.2 p c htail

theorem commitLoop_all_unchanged :
    ∀ (files : List (String × String)) (repo : List (String × String)),
      (∀ p c, (p, c) ∈ files → lookupFile repo p = some c) →
      commitLoop noFaults repo files =
        ⟨files.map (fun pc => ⟨pc.1, "unchanged"⟩), [], repo, 0⟩ := by
  intro files
  induction files with
  | nil => intro repo _; rfl
  | cons pc rest ih =>
    intro repo h
    obtain ⟨p, c⟩ := pc
    have hp : lookupFile repo p = some c := h p c (List.mem_cons_self _ _)
    have hstep : processFile repo (noFaults p) p c =
        (Sum.inl ⟨p, "unchanged"⟩, repo, 0) := by
      simp only [noFaults, processFile, hp]
      rw [if_pos (by simp)]
    simp only [commitLoop, hstep,
      ih repo (fun q d hqd => h q d (List.mem_cons_of_mem _ hqd))]
    rfl

end GHManager

namespace PRWorkflow

theorem invariant_step {s t : EngineState} (hs : Invariant s)
    (h : EngineStep s t) : Invariant t := by
  cases h with
  | start id ha hc =>
    refine ⟨List.nodup_cons.mpr ⟨ha, hs.1⟩, ?_⟩
    intro x hx
    rcases List.mem_cons.mp hx with rfl | hx2
    · exact hc
    · exact hs.2 x hx2
  | finish id hid =>
    refine ⟨hs.1.erase id, ?_⟩
    intro x hx
    have hxa : x ∈ s.active := List.mem_of_mem_erase hx
    have hxne : x ≠ id := ((List.Nodup.mem_erase_iff hs.1).mp hx).1
    intro hxc
    rcases List.mem_append.mp hxc with h1 | h1
    · exact hs.2 x hxa h1
    · simp only [List.mem_singleton] at h1
      exact hxne h1
  | finish_missing id h => exact hs
  | query => exact hs

theorem invariant_reachable {s : EngineState} (h : Reachable s) : Invariant s := by
  induction h with
  | init => exact ⟨List.nodup_nil, by simp⟩
  | step hr hstep ih => exact invariant_step ih hstep

end PRWorkflow

namespace GHManager

theorem commit_main_eq {repo files : List (String × String)}
    {faults : String → FileFault} (hne : files ≠ []) :
    commit_multiple_files true true repo faults files =
      (⟨some (if (commitLoop faults repo files).failed.isEmpty then "success"
          else "partial"),
        none, none, (commitLoop faults repo files).committed,
        some (commitLoop faults repo files).failed⟩,
       (commitLoop faults repo files).repo,
       (commitLoop faults repo files).writes, 1) := by
  unfold commit_multiple_files
  rw [if_neg (by simp), if_neg (by simpa using hne), if_neg (by simp)]

end GHManager

/-- C1 (counterexample): the raw claim is false.  Sanitizing the three-code
string `a \x01 b` leaves the control character 0x01 in place, and
`validate_branch_name` rejects the result because of it. -/
theorem C1_sanitize_not_always_valid :
    (GitOps.validate_branch_name (GitOps._sanitize_branch_name [97, 1, 98])).1 =
      false := by
  decide

/-- C1 (amended): for every input string containing no control characters
(all code points at least 32) whose lower-cased form has length at most
200 — lowering can lengthen the string, since `str.lower` maps U+0130 to
the two code points U+0069 U+0307, and the length bound must hold after
lowering so that the truncation step, which can leave a trailing slash, is
not triggered — `validate_branch_name` accepts the output of
`_sanitize_branch_name`. -/
theorem C1_sanitize_validates {x : List Nat} (hc : ∀ c ∈ x, 32 ≤ c)
    (hlen : (x.bind GitOps.pyLower).length ≤ 200) :
    (GitOps.validate_branch_name (GitOps._sanitize_branch_name x)).1 = true :=
  GitOps.validate_sanitize_ok hc hlen

theorem C1_sanitize_validates_witness :
    (∀ c ∈ ([72, 101, 32, 87, 111, 114, 108, 100, 33] : List Nat), 32 ≤ c) ∧
    (([72, 101, 32, 87, 111, 114, 108, 100, 33] : List Nat).bind
      GitOps.pyLower).length ≤ 200 ∧
    (GitOps.validate_branch_name (GitOps._sanitize_branch_name
      [72, 101, 32, 87, 111, 114, 108, 100, 33])).1 = true :=
  ⟨by decide, by decide, C1_sanitize_validates (by decide) (by decide)⟩

/-- C2: with an authenticated client, an existing branch and a non-empty
files map, `commit_multiple_files` never aborts on a per-file failure: the
result carries a `failed_files` list, the status is `success` exactly when
that list is empty and `partial` exactly when it is not, and the committed
and failed paths together are a permutation of the input paths — one
outcome entry per input file, whatever per-file faults occur. -/
theorem C2_per_file_failure_isolated {repo files : List (String × String)}
    {faults : String → GHManager.FileFault} (hne : files ≠ []) :
    ∃ fs : List GHManager.FailedFile,
      (GHManager.commit_multiple_files true true repo faults files).1.failed_files =
        some fs ∧
      ((GHManager.commit_multiple_files true true repo faults files).1.status =
          some "success" ↔ fs = []) ∧
      ((GHManager.commit_multiple_files true true repo faults files).1.status =
          some "partial" ↔ fs ≠ []) ∧
      (((GHManager.commit_multiple_files true true repo faults
          files).1.committed_files.map (fun o => o.path)) ++
        fs.map (fun o => o.path)).Perm (files.map Prod.fst) := by
  rw [GHManager.commit_main_eq hne]
  refine ⟨(GHManager.commitLoop faults repo files).failed, rfl, ?_, ?_,
    GHManager.commitLoop_perm faults files repo⟩
  · by_cases hf : (GHManager.commitLoop faults repo files).failed.isEmpty = true
    · rw [if_pos hf]
      exact ⟨fun _ => List.isEmpty_iff.mp hf, fun _ => rfl⟩
    · rw [if_neg hf]
      constructor
      · intro h
        exact absurd (Option.some.inj h) (by decide)
      · intro h
        exact absurd (by simp [h]) hf
  · by_cases hf : (GHManager.commitLoop faults repo files).failed.isEmpty = true
    · rw [if_pos hf]
      constructor
      · intro h
        exact absurd (Option.some.inj h) (by decide)
      · intro h
        exact absurd (List.isEmpty_iff.mp hf) h
    · rw [if_neg hf]
      refine ⟨fun _ => ?_, fun _ => rfl⟩
      intro hnil
      exact hf (by simp [hnil])

theorem C2_per_file_failure_isolated_witness :
    ∃ fs : List GHManager.FailedFile,
      (GHManager.commit_multiple_files true true []
        (fun p => if p == "b" then ⟨GHManager.GetFault.ok, GHManager.WriteFault.gh 500⟩
          else GHManager.noFaults p)
        [("a", "x"), ("b", "y")]).1.failed_files = some fs ∧
      ((GHManager.commit_multiple_files true true []
        (fun p => if p == "b" then ⟨GHManager.GetFault.ok, GHManager.WriteFault.gh 500⟩
          else GHManager.noFaults p)
        [("a", "x"), ("b", "y")]).1.status = some "success" ↔ fs = []) ∧
      ((GHManager.commit_multiple_files true true []
        (fun p => if p == "b" then ⟨GHManager.GetFault.ok, GHManager.WriteFault.gh 500⟩
          else GHManager.noFaults p)
        [("a", "x"), ("b", "y")]).1.status = some "partial" ↔ fs ≠ []) ∧
      (((GHManager.commit_multiple_files true true []
        (fun p => if p == "b" then ⟨GHManager.GetFault.ok, GHManager.WriteFault.gh 500⟩
          else GHManager.noFaults p)
        [("a", "x"), ("b", "y")]).1.committed_files.map (fun o => o.path)) ++
        fs.map (fun o => o.path)).Perm
        ([("a", "x"), ("b", "y")].map Prod.fst) :=
  C2_per_file_failure_isolated (by simp)

/-- C3: committing the same files map twice in a row with no faults and no
interleaving writes yields `unchanged` for every file of the second call,
no failed files, no create or update writes, and an unchanged branch
state. -/
theorem C3_commit_idempotent {repo files : List (String × String)}
    (hnd : (files.map Prod.fst).Nodup) (hne : files ≠ []) :
    (∀ o ∈ (GHManager.commit_multiple_files true true
        (GHManager.commit_multiple_files true true repo GHManager.noFaults
          files).2.1 GHManager.noFaults files).1.committed_files,
      o.action = "unchanged") ∧
    (GHManager.commit_multiple_files true true
        (GHManager.commit_multiple_files true true repo GHManager.noFaults
          files).2.1 GHManager.noFaults files).2.2.1 = 0 ∧
    (GHManager.commit_multiple_files true true
        (GHManager.commit_multiple_files true true repo GHManager.noFaults
          files).2.1 GHManager.noFaults files).2.1 =
      (GHManager.commit_multiple_files true true repo GHManager.noFaults
        files).2.1 ∧
    (GHManager.commit_multiple_files true true
        (GHManager.commit_multiple_files true true repo GHManager.noFaults
          files).2.1 GHManager.noFaults files).1.failed_files = some [] := by
  rw [GHManager.commit_main_eq hne, GHManager.commit_main_eq hne]
  rw [GHManager.commitLoop_all_unchanged files
    (GHManager.commitLoop GHManager.noFaults repo files).repo
    (fun p c h => GHManager.commitLoop_noFaults_sets files repo hnd p c h)]
  refine ⟨?_, rfl, rfl, rfl⟩
  intro o ho
  simp only [List.mem_map] at ho
  obtain ⟨pc, _, rfl⟩ := ho
  rfl

theorem C3_commit_idempotent_witness :
    (∀ o ∈ (GHManager.commit_multiple_files true true
        (GHManager.commit_multiple_files true true [] GHManager.noFaults
          [("a", "x")]).2.1 GHManager.noFaults [("a", "x")]).1.committed_files,
      o.action = "unchanged") ∧
    (GHManager.commit_multiple_files true true
        (GHManager.commit_multiple_files true true [] GHManager.noFaults
          [("a", "x")]).2.1 GHManager.noFaults [("a", "x")]).2.2.1 = 0 ∧
    (GHManager.commit_multiple_files true true
        (GHManager.commit_multiple_files true true [] GHManager.noFaults
          [("a", "x")]).2.1 GHManager.noFaults [("a", "x")]).2.1 =
      (GHManager.commit_multiple_files true true [] GHManager.noFaults
        [("a", "x")]).2.1 ∧
    (GHManager.commit_multiple_files true true
        (GHManager.commit_multiple_files true true [] GHManager.noFaults
          [("a", "x")]).2.1 GHManager.noFaults [("a", "x")]).1.failed_files =
      some [] :=
  C3_commit_idempotent (by simp) (by simp)

/-- C4 (counterexample): the raw claim is false.  A requests `HTTPError`
that carries HTTP status 401 is an instance of `RequestException`, so the
`isinstance` check in `_is_retryable_error` fires first and the error is
retried for the whole GITHUB_API budget of 5 attempts instead of failing
fast on the first attempt. -/
theorem C4_http_401_requests_exception_retried :
    ErrHandler.retry_with_backoff ErrHandler.ErrorType.github_api
        (fun _ => (Except.error ⟨true, some 401, []⟩ :
          Except ErrHandler.PyError Nat)) =
      (Except.error ⟨true, some 401, []⟩, 5) ∧ (5 : Nat) ≠ 1 := by
  exact ⟨rfl, by decide⟩

/-- C4 (amended): when every attempt fails with the same error `e`:
requests-library exception instances (the network-layer failures) are
retried up to the configured budget; for errors that are not requests
exception instances but expose a `response.status_code`, the statuses
429/500/502/503/504 are retried up to the budget while 401/403/404/422
fail fast after exactly one call. -/
theorem C4_retry_classification {α : Type} (t : ErrHandler.ErrorType)
    (f : Nat → Except ErrHandler.PyError α) (e : ErrHandler.PyError)
    (hf : ∀ i, f i = Except.error e) :
    (e.isRequestsException = true →
      ErrHandler.retry_with_backoff t f =
        (Except.error e, ErrHandler.max_attempts t)) ∧
    (∀ s, e.isRequestsException = false → e.status = some s →
      s ∈ [429, 500, 502, 503, 504] →
      ErrHandler.retry_with_backoff t f =
        (Except.error e, ErrHandler.max_attempts t)) ∧
    (∀ s, e.isRequestsException = false → e.status = some s →
      s ∈ [401, 403, 404, 422] →
      ErrHandler.retry_with_backoff t f = (Except.error e, 1)) := by
  refine ⟨?_, ?_, ?_⟩
  · intro hreq
    apply ErrHandler.retryGo_all_fail ?_ hf _ _ (ErrHandler.max_attempts_pos t)
    simp [ErrHandler._is_retryable_error, hreq]
  · intro s hreq hst hmem
    apply ErrHandler.retryGo_all_fail ?_ hf _ _ (ErrHandler.max_attempts_pos t)
    simp only [ErrHandler._is_retryable_error, hreq, Bool.false_eq_true, if_false,
      hst]
    have hcon : ErrHandler.github_api_retryable_status_codes.contains s = true ∧
        ErrHandler.general_retryable_status_codes.contains s = true := by
      simp only [List.mem_cons, List.not_mem_nil, or_false] at hmem
      rcases hmem with rfl | rfl | rfl | rfl | rfl
      · exact ⟨by decide, by decide⟩
      · exact ⟨by decide, by decide⟩
      · exact ⟨by decide, by decide⟩
      · exact ⟨by decide, by decide⟩
      · exact ⟨by decide, by decide⟩
    by_cases ht : (t == ErrHandler.ErrorType.github_api) = true
    · rw [if_pos ht]
      exact hcon.1
    · rw [if_neg ht]
      exact hcon.2
  · intro s hreq hst hmem
    have hr : ErrHandler._is_retryable_error e t = false := by
      simp only [ErrHandler._is_retryable_error, hreq, Bool.false_eq_true, if_false,
        hst]
      have hcon : ErrHandler.github_api_retryable_status_codes.contains s = false ∧
          ErrHandler.general_retryable_status_codes.contains s = false := by
        simp only [List.mem_cons, List.not_mem_nil, or_false] at hmem
        rcases hmem with rfl | rfl | rfl | rfl
        · exact ⟨by decide, by decide⟩
        · exact ⟨by decide, by decide⟩
        · exact ⟨by decide, by decide⟩
        · exact ⟨by decide, by decide⟩
      by_cases ht : (t == ErrHandler.ErrorType.github_api) = true
      · rw [if_pos ht]
        exact hcon.1
      · rw [if_neg ht]
        exact hcon.2
    exact ErrHandler.retryGo_fail_fast hr (hf 0) _
      (ErrHandler.max_attempts_pos t)

theorem C4_retry_classification_witness :
    ErrHandler.retry_with_backoff ErrHandler.ErrorType.github_api
        (fun _ => (Except.error ⟨false, some 404, []⟩ :
          Except ErrHandler.PyError Nat)) =
      (Except.error ⟨false, some 404, []⟩, 1) :=
  (C4_retry_classification ErrHandler.ErrorType.github_api _ _
    (fun _ => rfl)).2.2 404 rfl rfl (by decide)

/-- C5 (counterexample): the raw claim is false for the empty existing-branch
list: Python's `if not existing_branches` treats `[]` as "no list provided",
so `generate_unique_branch_name` returns a timestamp-suffixed name instead
of the sanitized base, even though the sanitized base is trivially not in
the empty list. -/
theorem C5_empty_existing_returns_timestamp_name :
    GitOps._sanitize_branch_name [102, 105, 120] ∉ ([] : List (List Nat)) ∧
    GitOps.generate_unique_branch_name [102, 105, 120] [] [] [48] ≠
      GitOps._sanitize_branch_name [102, 105, 120] := by
  exact ⟨by decide, by decide⟩

/-- C5 (amended): for a NON-empty existing list such that some candidate
`sanitized-j` (1 ≤ j ≤ 1000) is free, `generate_unique_branch_name`
returns a name not in the existing list, returns the sanitized base itself
whenever that base is not in the list, and returns a name passing
`validate_branch_name` whenever the sanitized base does. -/
theorem C5_generate_unique_properties {base repo_url ts : List Nat}
    {existing : List (List Nat)} (hne : existing ≠ [])
    (hfree : ∃ j, 1 ≤ j ∧ j ≤ 1000 ∧
      (GitOps._sanitize_branch_name base ++ 45 :: GitOps.natDigits j) ∉ existing) :
    GitOps.generate_unique_branch_name base repo_url existing ts ∉ existing ∧
    (GitOps._sanitize_branch_name base ∉ existing →
      GitOps.generate_unique_branch_name base repo_url existing ts =
        GitOps._sanitize_branch_name base) ∧
    ((GitOps.validate_branch_name (GitOps._sanitize_branch_name base)).1 = true →
      (GitOps.validate_branch_name
        (GitOps.generate_unique_branch_name base repo_url existing ts)).1 = true) :=
  GitOps.generate_unique_props hne hfree

theorem C5_generate_unique_properties_witness :
    GitOps.generate_unique_branch_name [102, 105, 120] [] [[109, 97, 105, 110]]
      [48] ∉ ([[109, 97, 105, 110]] : List (List Nat)) ∧
    (GitOps._sanitize_branch_name [102, 105, 120] ∉
        ([[109, 97, 105, 110]] : List (List Nat)) →
      GitOps.generate_unique_branch_name [102, 105, 120] [] [[109, 97, 105, 110]]
        [48] = GitOps._sanitize_branch_name [102, 105, 120]) ∧
    ((GitOps.validate_branch_name
        (GitOps._sanitize_branch_name [102, 105, 120])).1 = true →
      (GitOps.validate_branch_name
        (GitOps.generate_unique_branch_name [102, 105, 120] []
          [[109, 97, 105, 110]] [48])).1 = true) :=
  C5_generate_unique_properties (by decide) ⟨1, by decide, by decide, by decide⟩

/-- C6 (counterexample): the raw claim is false for `?` and `*`: the
validator's character class `[~^:\s\[\]\\]` contains neither, so the
names `a?b` and `a*b` are accepted. -/
theorem C6_question_star_accepted :
    (GitOps.validate_branch_name [97, 63, 98]).1 = true ∧
    (GitOps.validate_branch_name [97, 42, 98]).1 = true := by
  exact ⟨by decide, by decide⟩

/-- C6 (amended): `validate_branch_name` rejects every name containing
whitespace or one of `~ ^ : [ ] \` (the class `isInvalidChar`), and every
name violating the other listed rules: leading/trailing dot, consecutive
dots, the `@\x7b` pair, leading/trailing dash, trailing slash, consecutive
slashes, length over 250, control characters. -/
theorem C6_validator_rejections {name : List Nat}
    (h : (∃ c ∈ name, GitOps.isInvalidChar c = true) ∨
      name.head? = some 46 ∨ name.getLast? = some 46 ∨
      GitOps.hasPair 46 46 name = true ∨ GitOps.hasPair 64 123 name = true ∨
      name.head? = some 45 ∨ name.getLast? = some 45 ∨
      name.getLast? = some 47 ∨ GitOps.hasPair 47 47 name = true ∨
      250 < name.length ∨ (∃ c ∈ name, c < 32)) :
    (GitOps.validate_branch_name name).1 = false := by
  cases hv : (GitOps.validate_branch_name name).1 with
  | false => rfl
  | true =>
    exfalso
    obtain ⟨p1, p2, p3, p4, p5, p6, p7, p8, p9, p10, p11, p12⟩ :=
      GitOps.validate_ok_parts hv
    rcases h with ⟨c, hc, hic⟩ | hh | hh | hh | hh | hh | hh | hh | hh | hh | ⟨c, hc, hcc⟩
    · have := List.any_eq_false.mp p5 c hc
      exact absurd hic (by simp [this])
    · rw [hh] at p2; simp at p2
    · rw [hh] at p3; simp at p3
    · rw [hh] at p4; exact Bool.true_eq_false ▸ p4.symm ▸ (by simp at p4)
    · rw [hh] at p6; simp at p6
    · rw [hh] at p7; simp at p7
    · rw [hh] at p8; simp at p8
    · rw [hh] at p9; simp at p9
    · rw [hh] at p10; simp at p10
    · omega
    · have := List.any_eq_false.mp p12 c hc
      simp at this
      omega

theorem C6_validator_rejections_witness :
    (GitOps.validate_branch_name [97, 32, 98]).1 = false :=
  C6_validator_rejections (Or.inl ⟨32, by decide, by decide⟩)

/-- C7: `calculate_file_diff` classifies `change_type` as `create` when the
original is empty and the new content is not, `delete` in the opposite
case, `no_change` on equal contents, and `modify` otherwise. -/
theorem C7_change_type_classification (o n : List Nat) :
    (o = [] → n ≠ [] → (GitOps.calculate_file_diff o n).change_type = "create") ∧
    (o ≠ [] → n = [] → (GitOps.calculate_file_diff o n).change_type = "delete") ∧
    (o = n → (GitOps.calculate_file_diff o n).change_type = "no_change") ∧
    (o ≠ [] → n ≠ [] → o ≠ n →
      (GitOps.calculate_file_diff o n).change_type = "modify") := by
  refine ⟨?_, ?_, ?_, ?_⟩
  · intro h1 h2
    subst h1
    simp [GitOps.calculate_file_diff, h2]
  · intro h1 h2
    subst h2
    simp [GitOps.calculate_file_diff, h1]
  · intro h1
    subst h1
    simp [GitOps.calculate_file_diff]
  · intro h1 h2 h3
    simp [GitOps.calculate_file_diff, h1, h2, h3]

theorem C7_change_type_classification_witness :
    (GitOps.calculate_file_diff [] [97]).change_type = "create" ∧
    (GitOps.calculate_file_diff [97] []).change_type = "delete" ∧
    (GitOps.calculate_file_diff [97] [97]).change_type = "no_change" ∧
    (GitOps.calculate_file_diff [97] [98]).change_type = "modify" :=
  ⟨(C7_change_type_classification [] [97]).1 rfl (by decide),
   (C7_change_type_classification [97] []).2.1 (by decide) rfl,
   (C7_change_type_classification [97] [97]).2.2.1 rfl,
   (C7_change_type_classification [97] [98]).2.2.2 (by decide) (by decide)
     (by decide)⟩

/-- C8 (counterexample): the raw claim is false.  For the 210-character
input of 199 `a`s, one `/` and ten `b`s, the 200-character truncation cuts
right after the slash and `rstrip` removes only dashes and dots, so the
first sanitization ends in `/` and a second sanitization strips it:
`_sanitize_branch_name` is not idempotent on inputs longer than 200. -/
theorem C8_not_idempotent_truncation :
    GitOps._sanitize_branch_name (GitOps._sanitize_branch_name
      (List.replicate 199 97 ++ 47 :: List.replicate 10 98)) ≠
    GitOps._sanitize_branch_name
      (List.replicate 199 97 ++ 47 :: List.replicate 10 98) := by
  set_option maxRecDepth 10000 in decide

/-- C8 (amended): `_sanitize_branch_name` is idempotent on every input
whose lower-cased form has length at most 200, i.e. whenever the
truncation branch is not taken.  The bound is on the lowered length
because `str.lower` maps U+0130 to two code points, so lowering can push
a string of length at most 200 past the truncation threshold. -/
theorem C8_idempotent_le_200 {x : List Nat}
    (hlen : (x.bind GitOps.pyLower).length ≤ 200) :
    GitOps._sanitize_branch_name (GitOps._sanitize_branch_name x) =
      GitOps._sanitize_branch_name x :=
  GitOps.sanitize_idempotent_of_le hlen

theorem C8_idempotent_le_200_witness :
    (([72, 101, 32, 87, 111, 114, 108, 100, 33] : List Nat).bind
      GitOps.pyLower).length ≤ 200 ∧
    GitOps._sanitize_branch_name (GitOps._sanitize_branch_name
      [72, 101, 32, 87, 111, 114, 108, 100, 33]) =
      GitOps._sanitize_branch_name [72, 101, 32, 87, 111, 114, 108, 100, 33] :=
  ⟨by decide, C8_idempotent_le_200 (by decide)⟩

/-- C9: in every state reachable by engine operations, no workflow id is in
both the active map and the completed list: `_complete_workflow` moves an
id from one collection to the other within a single operation. -/
theorem C9_active_completed_disjoint {s : PRWorkflow.EngineState}
    (h : PRWorkflow.Reachable s) :
    ∀ id, ¬(id ∈ s.active ∧ id ∈ s.completed) := by
  intro id hid
  exact (PRWorkflow.invariant_reachable h).2 id hid.1 hid.2

theorem C9_active_completed_disjoint_witness :
    ¬(("w" : String) ∈ (["w"] : List String).erase "w" ∧
      ("w" : String) ∈ ([] : List String) ++ ["w"]) :=
  C9_active_completed_disjoint
    (PRWorkflow.Reachable.step
      (PRWorkflow.Reachable.step PRWorkflow.Reachable.init
        (PRWorkflow.EngineStep.start ⟨[], []⟩ "w" (by simp) (by simp)))
      (PRWorkflow.EngineStep.finish ⟨["w"], []⟩ "w" (by simp)))
    "w"

/-- C10: with an authenticated client, an empty files map makes
`commit_multiple_files` return the error result `No files provided for
commit` with zero branch reads and zero writes, whatever the branch state
or fault assignment. -/
theorem C10_empty_files_no_remote_calls (branch_exists : Bool)
    (repo : List (String × String)) (faults : String → GHManager.FileFault) :
    GHManager.commit_multiple_files true branch_exists repo faults [] =
      (⟨some "error", some "No files provided for commit", none, [], none⟩,
        repo, 0, 0) := by
  rfl
